import Mathlib

/-!
Verification of the batch-annotation / variant-generation pipeline.

This file gives a shallow embedding, over `List Char` and `String`, of the
string-processing and aggregation core of the repository:

* `RQ2/run_full_patched.py` : `validate_and_trim_strict`, `coerce_to_template`
  and the per-output recording step of `run_with_vllm_direct`;
* `RQ2/full_patch.py`       : `process_item` / the fan-out-and-gather of
  `patch_code_from_file`, and `_parse_patch_response`;
* `RQ2/cul_full_patched.py` : `parse_final_answer` and the ratio aggregation
  of `process_model_dir`;
* `RQ3/cul_N_patched.py`    : `is_secure_answer` and the coverage aggregation
  of `process_model_dir`;
* `RQ3/N_patch.py`          : `extract_code_block_from_model` and
  `DeepseekVariantPatcher.process_entries`;
* `RQ3/del_N_patched.py`    : `inject_index_for_pair`.

Modelling conventions, chosen once for the whole file:

* Python strings are `String` at the interface and `List Char` internally.
  `str.strip()` / `str.rstrip()` are `pyStripL` / `trimR` over
  `Char.isWhitespace` (space, tab, CR, LF - the characters occurring in this
  protocol).
* Line splitting is on the `'\n'` character (the separator the pipeline's
  own serializers emit); `str.splitlines()` is modelled by `pySplitlines`
  which additionally drops a final empty segment, as Python does.
* `re.split(r"[\n\r]+", s)` followed by per-line `strip()` and dropping of
  empty lines is modelled by splitting at every single `'\n'`/`'\r'` and
  then stripping/filtering: collapsing separator runs only changes the empty
  segments that the filter removes, so the composite is extensionally equal.
* The regexes `r"```c(.*?)```"` and `r"```c\s*(.*?)\s*```"` (DOTALL,
  IGNORECASE) are modelled by `fenceSearch`: leftmost opening fence
  markdown-style, earliest closing fence after it, with the group stripped
  (the callers strip the group, which subsumes the `\s*` absorption).
* JSON values reaching the relevant code paths are modelled by `PyVal`
  (string / int / other) and items by `PyItem` (a dict with the three fields
  the code reads - `answer`, `origin_code`, `index` - or a non-dict);
  further key-value pairs of an item are payload carried around unchanged
  and are not modelled.
* Remote-model calls are oracles passed as explicit function arguments;
  a call that raises is an `Except.error`.  Float statistics are modelled
  exactly, in `ℚ`.
-/

/-! ### Python string primitives over `List Char` -/

/-- Whitespace test used by the embedded `strip`/`rstrip`. -/
def isWs (c : Char) : Bool := c.isWhitespace

/-- Model of `str.rstrip()`: drop trailing whitespace. -/
def trimR (l : List Char) : List Char := (l.reverse.dropWhile isWs).reverse

/-- Model of `str.strip()`: drop leading then trailing whitespace. -/
def pyStripL (l : List Char) : List Char := trimR (l.dropWhile isWs)

/-- Model of `str.strip()` at the `String` interface. -/
def pyStrip (s : String) : String := (pyStripL s.toList).asString

/-- Split at every character satisfying `p`; separators are not kept.
Mirrors Python `str.split(sep)` for a one-character separator
(`splitOnP (· = sep)`): never merges adjacent separators, and the empty
list yields `[[]]` just as `"".split(sep) == [""]`. -/
def splitOnP (p : Char → Bool) : List Char → List (List Char)
  | [] => [[]]
  | c :: l =>
    if p c then [] :: splitOnP p l
    else
      match splitOnP p l with
      | [] => [[c]]
      | h :: t => (c :: h) :: t

/-- Model of `"\n".join`, over char lists. -/
def joinNl : List (List Char) → List Char
  | [] => []
  | [l] => l
  | l :: ls => l ++ '\n' :: joinNl ls

/-- Model of `str.splitlines()` restricted to `'\n'` separators: like splitting on
`'\n'` but without the final empty segment a trailing newline would
produce, and `[]` for the empty string. -/
def pySplitlines (l : List Char) : List (List Char) :=
  if l = [] then []
  else
    let parts := splitOnP (fun c => c = '\n') l
    if parts.getLast? = some [] then parts.dropLast else parts

/-- First index `i` such that the predicate holds of `l.drop i`
(helper for substring search). -/
def firstIdxWhere (pred : List Char → Bool) : List Char → Option Nat
  | [] => if pred [] then some 0 else none
  | c :: l =>
    if pred (c :: l) then some 0
    else (firstIdxWhere pred l).map (· + 1)

/-- Model of `str.find(pat)`: index of the first occurrence of `pat`, if any. -/
def firstSubIdx (pat : List Char) (l : List Char) : Option Nat :=
  firstIdxWhere (fun suf => pat.isPrefixOf suf) l

/-- Python `pat in s` (substring containment). -/
def containsSub (s pat : String) : Bool := (firstSubIdx pat.toList s.toList).isSome

/-- First index of an element satisfying `p` (Python loop with `break`). -/
def pyFindIdx {α : Type} (p : α → Bool) : List α → Option Nat
  | [] => none
  | a :: l => if p a then some 0 else (pyFindIdx p l).map (· + 1)

/-- Last index `i < n` with `p i`, computed exactly like the Python loop
`for i in range(n): if p(i): last = i`. -/
def lastMatch (p : Nat → Bool) (n : Nat) : Option Nat :=
  (List.range n).foldl (fun acc j => if p j then some j else acc) none

/-! ### Shared protocol constants -/

/-- The literal header line `# Answer:`. -/
def answerHdr : List Char := "# Answer:".toList

/-- The literal header line `# Reasoning:`. -/
def reasonHdr : List Char := "# Reasoning:".toList

/-- The verdict token `Secure`. -/
def secureTok : List Char := "Secure".toList

/-- The verdict token `Insecure`. -/
def insecureTok : List Char := "Insecure".toList

/-- The literal marker `"# Answer:\nInsecure"` tested with Python `in`. -/
def insecureMarker : String := "# Answer:\nInsecure"

/-! ### JSON-ish data model -/

/-- A JSON value as far as the embedded code inspects it: a string, a
non-negative integer (the values `enumerate` injects), or anything else. -/
inductive PyVal : Type where
  | vstr (s : String)
  | vint (n : Nat)
  | vother
deriving DecidableEq, Repr

/-- The fields of an input item that the embedded code reads.  `none`
means the key is absent.  All remaining key-value pairs of the underlying
dict are payload that every stage copies verbatim (`dict(item)`), so they
are not modelled. -/
structure ItemObj : Type where
  answer : Option PyVal := none
  origin_code : Option PyVal := none
  index : Option PyVal := none
deriving DecidableEq, Repr

/-- An element of an input JSON array: a dict or something else. -/
inductive PyItem : Type where
  | notDict
  | obj (o : ItemObj)
deriving DecidableEq, Repr

/-- A record emitted by a patching stage: the copied item fields plus the
`patched_code` field that the stage adds. -/
structure PatchedRec : Type where
  base : ItemObj
  patched_code : String
deriving DecidableEq, Repr

/-! ### `RQ2/run_full_patched.py` -/

namespace RunFullPatched

/-- Lines 179-183 of run_full_patched.py: anchor the stripped text at
`# Reasoning:` - keep it if it already starts there, otherwise drop
everything before the first occurrence (and re-strip); `none` when the
header is absent. -/
def anchorReason (t0 : List Char) : Option (List Char) :=
  if reasonHdr.isPrefixOf t0 then some t0
  else
    match firstSubIdx reasonHdr t0 with
    | none => none
    | some i => some (pyStripL (t0.drop i))

/-- Lines 192-206 of run_full_patched.py, from `tail_lines` on: find the
first tail line that strips to exactly `# Answer:`, require a following
line stripping to `Secure`/`Insecure`, and reassemble
`head + "\n" + answer block + "\n" + verdict`. -/
def validateSplit (head : List Char) (tls : List (List Char)) : List Char :=
  match pyFindIdx (fun ln => pyStripL ln = answerHdr) tls with
  | none => []
  | some ansIdx =>
    if ansIdx = tls.length - 1 then []
    else
      if pyStripL (tls.getD (ansIdx + 1) []) = secureTok ∨
          pyStripL (tls.getD (ansIdx + 1) []) = insecureTok then
        head ++ '\n' :: joinNl (tls.take (ansIdx + 1)) ++
          '\n' :: pyStripL (tls.getD (ansIdx + 1) [])
      else []

/-- Lines 185-206 of run_full_patched.py: find the first substring
occurrence of `# Answer:`, cut `head` (right-stripped) before it and the
line-split tail from it. -/
def validateTail (t : List Char) : List Char :=
  match firstSubIdx answerHdr t with
  | none => []
  | some idxAns =>
    validateSplit (trimR (t.take idxAns)) (pySplitlines (t.drop idxAns))

/-- Char-level body of `validate_and_trim_strict` (run_full_patched.py,
lines 174-206), assembled from the stage helpers above, step for step with
the Python code. -/
def validateChars (l : List Char) : List Char :=
  if l = [] then []
  else
    match anchorReason (pyStripL l) with
    | none => []
    | some t => validateTail t

/-- Model of `validate_and_trim_strict` (run_full_patched.py, lines 174-206). -/
def validate_and_trim_strict (text : String) : String :=
  (validateChars text.toList).asString

/-- The non-empty lines of the raw text, stripped, in order
(`[ln.strip() for ln in re.split(r"[\n\r]+", raw) if ln.strip()]`). -/
def coerceLines (raw : List Char) : List (List Char) :=
  ((splitOnP (fun c => c = '\n' ∨ c = '\r') raw).map pyStripL).filter (fun ln => ln ≠ [])

/-- Model of `f"{i+1}. {b}"` applied along a list of bullets. -/
def numberBullets (ls : List (List Char)) : List (List Char) :=
  ls.enum.map (fun p => (Nat.repr (p.1 + 1)).toList ++ '.' :: ' ' :: p.2)

/-- Line 211 of run_full_patched.py: the synthetic fallback bullet list
when the input has no non-empty lines. -/
def coerceBullets (raw : List Char) : List (List Char) :=
  if coerceLines raw = [] then ["No explicit reasoning found.".toList]
  else coerceLines raw

/-- Char-level body of `coerce_to_template` (run_full_patched.py,
lines 208-214). -/
def coerceChars (raw : List Char) : List Char :=
  reasonHdr ++ '\n' :: joinNl (numberBullets ((coerceBullets raw).take 5)) ++
    '\n' :: '\n' :: answerHdr ++ '\n' :: insecureTok

/-- Model of `coerce_to_template` (run_full_patched.py, lines 208-214). -/
def coerce_to_template (raw_text : String) : String :=
  (coerceChars raw_text.toList).asString

/-- The answer-recording step of `run_with_vllm_direct` (run_full_patched.py,
lines 246-250): strict validation, with coercion as fallback when the
validator rejects. -/
def record_answer (text : String) : String :=
  if validate_and_trim_strict text = "" then coerce_to_template text
  else validate_and_trim_strict text

end RunFullPatched

/-! ### Fenced code-block extraction (`N_patch.py` / `full_patch.py`) -/

/-- Does an opening fence `"```c"` (case-insensitive `c`) start here? -/
def isOpenFence (suf : List Char) : Bool :=
  "```c".toList.isPrefixOf suf ∨ "```C".toList.isPrefixOf suf

/-- Leftmost match of `` ```c(.*?)``` `` (DOTALL, IGNORECASE): earliest
opening fence, then earliest closing ``` ``` `` at least 4 characters later;
returns the raw group between them.  A later opening fence always contains
a closing fence, so if the earliest opening fence has no closer the whole
search fails, exactly as the backtracking regex does. -/
def fenceSearch (l : List Char) : Option (List Char) :=
  match firstIdxWhere isOpenFence l with
  | none => none
  | some p =>
    let rest := l.drop (p + 4)
    match firstSubIdx "```".toList rest with
    | none => none
    | some q => some (rest.take q)

namespace NPatch

/-- Model of `DeepseekVariantPatcher.extract_code_block_from_model` (N_patch.py,
lines 118-125): `re.search(r"```c\s*(.*?)\s*```", text, DOTALL|IGNORECASE)`,
returning the stripped group (the group is already `\s*`-trimmed at both
ends; the code's `.strip()` makes that equivalent to stripping the raw
group), and `none` when `text` is empty or no fenced block matches. -/
def extract_code_block_from_model (text : String) : Option String :=
  if text = "" then none
  else
    match fenceSearch text.toList with
    | none => none
    | some mid => some (pyStripL mid).asString

/-- One iteration of the `process_entries` loop (N_patch.py, lines
132-164) for the entry at position `idx`.
`analyze` is the descriptor-extraction call (`analyze_vulnerabilities`):
`Except.error` models a raised exception (network failure or invalid JSON),
which the `except` clause turns into a skipped entry.  `patchRaw` is the
patch-generation completion, giving the raw model text for
(origin_code, analysis, retained descriptor). -/
def processEntry (analyze : String → Except Unit (List String))
    (patchRaw : String → String → String → String)
    (idx : Nat) (item : PyItem) : List PatchedRec :=
  match item with
  | .notDict => []
  | .obj o =>
    match o.answer.getD (.vstr "") with
    | .vother => []
    | .vint _ => []
    | .vstr answer_text =>
      if ¬ containsSub answer_text insecureMarker then []
      else
        match o.origin_code.getD (.vstr "") with
        | .vother => []
        | .vint _ => []
        | .vstr origin_code =>
          if pyStripL origin_code.toList = [] then []
          else
            match analyze answer_text with
            | .error _ => []
            | .ok vulns =>
              vulns.filterMap (fun v_desc =>
                match extract_code_block_from_model
                    (patchRaw origin_code answer_text v_desc) with
                | none => none
                | some code =>
                  if code = "" then none
                  else some { base := { o with index := some (.vint idx) },
                              patched_code := code })

/-- Model of `DeepseekVariantPatcher.process_entries` (N_patch.py, lines 127-167):
enumerate the entries and append, in order, the variants each one emits. -/
def process_entries (analyze : String → Except Unit (List String))
    (patchRaw : String → String → String → String)
    (entries : List PyItem) : List PatchedRec :=
  (entries.enum.map (fun p => processEntry analyze patchRaw p.1 p.2)).flatten

/-- The guard of the `process_entries` loop: the entry is a dict whose
`answer` is a string containing the literal `"# Answer:\nInsecure"` and
whose `origin_code` is a string with non-empty strip. -/
def entryEligible (item : PyItem) : Bool :=
  match item with
  | .notDict => false
  | .obj o =>
    match o.answer.getD (.vstr "") with
    | .vother => false
    | .vint _ => false
    | .vstr answer_text =>
      containsSub answer_text insecureMarker &&
        match o.origin_code.getD (.vstr "") with
        | .vother => false
        | .vint _ => false
        | .vstr origin_code => !(pyStripL origin_code.toList).isEmpty

end NPatch

/-! ### `RQ2/full_patch.py` -/

namespace FullPatch

/-- Model of `DeepSeekCodePatcher._parse_patch_response` (full_patch.py, lines
81-87): first `` ```c(.*?)``` `` group stripped, else the whole response
stripped. -/
def parse_patch_response (response_text : String) : String :=
  match fenceSearch response_text.toList with
  | some mid => (pyStripL mid).asString
  | none => (pyStripL response_text.toList).asString

/-- Model of `process_item` (full_patch.py, lines 113-139).  `oracle` is the
retried DeepSeek call returning the message content, `Except.error e`
modelling an exception whose text is `e`; the handler then records the
sentinel `"// PATCHING FAILED: "` payload instead of dropping the item.
`none` is Python's `None` for skipped items. -/
def process_item (oracle : String → Except String String)
    (item : PyItem) : Option PatchedRec :=
  match item with
  | .notDict => none
  | .obj o =>
    match o.answer.getD (.vstr "") with
    | .vother => none
    | .vint _ => none
    | .vstr answer_text =>
      if ¬ containsSub answer_text insecureMarker then none
      else
        match o.origin_code.getD (.vstr "") with
        | .vother => none
        | .vint _ => none
        | .vstr origin_code =>
          if pyStripL origin_code.toList = [] then none
          else
            match oracle answer_text with
            | .ok raw => some { base := o, patched_code := parse_patch_response raw }
            | .error e => some { base := o, patched_code := "// PATCHING FAILED: " ++ e }

/-- The eligibility guard of `process_item`: a dict whose `answer` string
contains `"# Answer:\nInsecure"` and whose `origin_code` strips non-empty.
`process_item` returns a record exactly on these items, whatever the
oracle does. -/
def itemEligible (item : PyItem) : Bool :=
  match item with
  | .notDict => false
  | .obj o =>
    match o.answer.getD (.vstr "") with
    | .vother => false
    | .vint _ => false
    | .vstr answer_text =>
      containsSub answer_text insecureMarker &&
        match o.origin_code.getD (.vstr "") with
        | .vother => false
        | .vint _ => false
        | .vstr origin_code => !(pyStripL origin_code.toList).isEmpty

/-- The `asyncio.gather` of `patch_code_from_file` (full_patch.py, lines
141-143), made order-explicit: there is one result slot per input
position; `order` is the nondeterministic sequence in which the per-item
tasks complete, and each completion writes its task's result into its own
slot.  The gathered sequence reads the slots in input order (an unfilled
slot reads as a skipped item). -/
def gatherSlots {α : Type} (task : Nat → Option α) (n : Nat)
    (order : List Nat) : List (Option α) :=
  (order.foldl (fun slots i => slots.set i (some (task i)))
      (List.replicate n (none : Option (Option α)))).map (fun s => s.getD none)

/-- The result list `patch_code_from_file` serializes (full_patch.py,
lines 141-145): gather one `process_item` result per input item, then drop
the falsy (skipped) entries. -/
def patch_code_from_file (oracle : String → Except String String)
    (data : List PyItem) (order : List Nat) : List PatchedRec :=
  (gatherSlots (fun i => process_item oracle (data.getD i .notDict))
      data.length order).filterMap id

end FullPatch

/-! ### Verdict extraction (`cul_full_patched.py` / `cul_N_patched.py`) -/

/-- The line list both extractors build: split on `"\n"`, then delete every
`'\r'` from each line (`ln.replace("\r", "")`). -/
def ansLinesChars (l : List Char) : List (List Char) :=
  (splitOnP (fun c => c = '\n') l).map (fun ln => ln.filter (fun c => c ≠ '\r'))

namespace CulFullPatched

/-- Model of `parse_final_answer` (cul_full_patched.py, lines 21-31): the stripped
line following the last line that strips to exactly `# Answer:`, or `""`
when there is no such line or nothing follows it. -/
def parse_final_answer (answer_text : String) : String :=
  match lastMatch
      (fun i => pyStripL ((ansLinesChars answer_text.toList).getD i []) = answerHdr)
      (ansLinesChars answer_text.toList).length with
  | none => ""
  | some li =>
    if li + 1 ≥ (ansLinesChars answer_text.toList).length then ""
    else (pyStripL ((ansLinesChars answer_text.toList).getD (li + 1) [])).asString

/-- Model of `obj.get("answer", "")` fed to `parse_final_answer`, which returns `""`
for a non-string argument (its `isinstance` guard). -/
def parseFinalOfVal (v : PyVal) : String :=
  match v with
  | .vstr s => parse_final_answer s
  | .vint _ => ""
  | .vother => ""

/-- The statistics triple the aggregators report; `pct` is kept exact. -/
structure CulStats : Type where
  num : Nat
  a : Nat
  pct : ℚ
deriving DecidableEq, Repr

/-- The per-file accumulation step of `process_model_dir`
(cul_full_patched.py, lines 48-57): `num += len(arr)`, then one pass over
the elements incrementing `a` for each dict whose answer parses to
`Insecure`. -/
def tallyFile (acc : Nat × Nat) (arr : List PyItem) : Nat × Nat :=
  (acc.1 + arr.length,
    arr.foldl (fun a item =>
      match item with
      | .notDict => a
      | .obj o => if parseFinalOfVal (o.answer.getD (.vstr "")) = "Insecure" then a + 1 else a)
      acc.2)

/-- Model of `process_model_dir` (cul_full_patched.py, lines 33-61), abstracted over
the list of successfully loaded JSON arrays (missing or unreadable files
are skipped before this point): total count, `Insecure` count, and the
percentage with the explicit division-by-zero guard. -/
def process_model_dir (files : List (List PyItem)) : CulStats :=
  { num := (files.foldl tallyFile (0, 0)).1,
    a := (files.foldl tallyFile (0, 0)).2,
    pct := if 0 < (files.foldl tallyFile (0, 0)).1
      then ((files.foldl tallyFile (0, 0)).2 : ℚ) /
        ((files.foldl tallyFile (0, 0)).1 : ℚ) * 100
      else 0 }

end CulFullPatched

namespace CulNPatched

/-- Model of `is_secure_answer` (cul_N_patched.py, lines 25-35): true exactly when
the last line stripping to `# Answer:` exists and is followed by a line
stripping to `Secure`. -/
def is_secure_answer (answer_text : String) : Bool :=
  match lastMatch
      (fun i => pyStripL ((ansLinesChars answer_text.toList).getD i []) = answerHdr)
      (ansLinesChars answer_text.toList).length with
  | none => false
  | some li =>
    if li + 1 ≥ (ansLinesChars answer_text.toList).length then false
    else pyStripL ((ansLinesChars answer_text.toList).getD (li + 1) []) = secureTok

/-- Model of `obj.get("answer", "")` fed to `is_secure_answer`, which returns
`False` for a non-string argument. -/
def isSecureOfVal (v : PyVal) : Bool :=
  match v with
  | .vstr s => is_secure_answer s
  | .vint _ => false
  | .vother => false

/-- The mutable state of the coverage aggregation (cul_N_patched.py,
lines 38-39): the set of indices seen, and the `index_has_secure` dict,
represented by its key set and a total valuation (only meaningful on the
keys; initially everything is `false`). -/
structure CovState : Type where
  all_indices : Finset PyVal
  keys : Finset PyVal
  val : PyVal → Bool

/-- The empty coverage state. -/
def covInit : CovState := { all_indices := ∅, keys := ∅, val := fun _ => false }

/-- Processing of one array element (cul_N_patched.py, lines 53-67):
skip non-dicts and dicts without `index`; otherwise add the index to the
seen set, then either force the flag to `True` on a `Secure` answer or
`setdefault` it to `False`. -/
def cov_merge (st : CovState) (item : PyItem) : CovState :=
  match item with
  | .notDict => st
  | .obj o =>
    match o.index with
    | none => st
    | some idx =>
      if isSecureOfVal (o.answer.getD (.vstr "")) then
        { all_indices := insert idx st.all_indices,
          keys := insert idx st.keys,
          val := Function.update st.val idx true }
      else if idx ∈ st.keys then
        { st with all_indices := insert idx st.all_indices }
      else
        { all_indices := insert idx st.all_indices,
          keys := insert idx st.keys,
          val := Function.update st.val idx false }

/-- The final statistics (cul_N_patched.py, lines 69-74): distinct indices,
indices whose flag is `True`, and the guarded percentage. -/
def cov_stats (st : CovState) : CulFullPatched.CulStats :=
  { num := st.all_indices.card,
    a := (st.keys.filter (fun i => st.val i)).card,
    pct := if 0 < st.all_indices.card
      then ((st.keys.filter (fun i => st.val i)).card : ℚ) /
        (st.all_indices.card : ℚ) * 100
      else 0 }

/-- Model of `process_model_dir` (cul_N_patched.py, lines 37-74), abstracted over
the successfully loaded answer arrays. -/
def process_model_dir (files : List (List PyItem)) : CulFullPatched.CulStats :=
  cov_stats (files.foldl (fun st arr => arr.foldl cov_merge st) covInit)

end CulNPatched

/-! ### `RQ3/del_N_patched.py` -/

namespace DelNPatched

/-- Model of `inject_index_for_pair` (del_N_patched.py, lines 32-54), as the
transformation it applies to the answer array: for each position below
`min(len(code_arr), len(ans_arr))` where both sides are dicts and the code
side has an `index`, copy that `index` onto the answer element verbatim;
every other element is left unchanged (missing `index` and non-dict
elements are logged and skipped). -/
def inject_index_for_pair (code_arr ans_arr : List PyItem) : List PyItem :=
  ans_arr.enum.map (fun p =>
    if p.1 < min code_arr.length ans_arr.length then
      match code_arr.getD p.1 .notDict, p.2 with
      | .obj co, .obj ao =>
        match co.index with
        | some iv => .obj { ao with index := some iv }
        | none => p.2
      | _, _ => p.2
    else p.2)

end DelNPatched

/-! ### Spec-side definitions (the claims' own wording, for comparison) -/

namespace RunFullPatched

/-- Follows the spec sentence behind claim C2: identical to
`validateSplit` except that the answer block is split at the LAST tail
line that strips to exactly `# Answer:`, with the verdict taken from the
line immediately following that last occurrence. -/
def validateLastSplit (head : List Char) (tls : List (List Char)) : List Char :=
  match lastMatch (fun i => pyStripL (tls.getD i []) = answerHdr) tls.length with
  | none => []
  | some ansIdx =>
    if ansIdx = tls.length - 1 then []
    else
      if pyStripL (tls.getD (ansIdx + 1) []) = secureTok ∨
          pyStripL (tls.getD (ansIdx + 1) []) = insecureTok then
        head ++ '\n' :: joinNl (tls.take (ansIdx + 1)) ++
          '\n' :: pyStripL (tls.getD (ansIdx + 1) [])
      else []

/-- The last-occurrence validator the spec's wording describes: the stages
of `validateChars` with `validateSplit` replaced by `validateLastSplit`. -/
def validateLastChars (l : List Char) : List Char :=
  if l = [] then []
  else
    match anchorReason (pyStripL l) with
    | none => []
    | some t =>
      match firstSubIdx answerHdr t with
      | none => []
      | some idxAns =>
        validateLastSplit (trimR (t.take idxAns)) (pySplitlines (t.drop idxAns))

/-- The last-occurrence validator of the spec's wording, at the `String`
interface. -/
def validate_and_trim_last_spec (text : String) : String :=
  (validateLastChars text.toList).asString

/-- The document claim C5 asserts `coerce_to_template` returns for every
input: reasoning section consisting of the first `k ≤ 5` non-empty lines
of the input (taken stripped, as displayed), numbered `1..k`, and verdict
`Insecure` - with no provision for an input that has no non-empty lines. -/
def coerce_claim_doc (raw : String) : String :=
  (reasonHdr ++ '\n' :: joinNl (numberBullets ((coerceLines raw.toList).take 5)) ++
    '\n' :: '\n' :: answerHdr ++ '\n' :: insecureTok).asString

end RunFullPatched

namespace CulNPatched

/-- Claim C4's declarative reading of verdict extraction: the last line
whose trimmed content (after CR removal, as the code normalizes lines) is
exactly `# Answer:` exists and is immediately followed by a line whose
trimmed content is `Secure`. -/
def lastAnswerFollowedBySecure (s : String) : Prop :=
  ∃ i, i + 1 < (ansLinesChars s.toList).length ∧
    pyStripL ((ansLinesChars s.toList).getD i []) = answerHdr ∧
    (∀ j, i < j → j < (ansLinesChars s.toList).length →
      pyStripL ((ansLinesChars s.toList).getD j []) ≠ answerHdr) ∧
    pyStripL ((ansLinesChars s.toList).getD (i + 1) []) = secureTok

end CulNPatched

/-! ### Concrete fixtures used by counterexamples and witnesses -/

/-- Fields of an item whose analysis verdict is `Secure`. -/
def secureObj : ItemObj :=
  { answer := some (.vstr "# Reasoning:\n1. ok\n# Answer:\nSecure"),
    origin_code := some (.vstr "int main_ok;") }

/-- An input item whose analysis verdict is `Secure`: `patch_code_from_file`
skips it (it never reaches the model call). -/
def secureItem : PyItem := .obj secureObj

/-- An input item eligible for patching: `Insecure` marker present and
non-empty `origin_code`. -/
def insecureItem : PyItem :=
  .obj { answer := some (.vstr "# Reasoning:\n1. bad\n# Answer:\nInsecure"),
         origin_code := some (.vstr "int x;") }

/-- Fields of an eligible entry that additionally carries an explicit
`index` field with value `7`. -/
def insecureObj7 : ItemObj :=
  { answer := some (.vstr "# Reasoning:\n1. bad\n# Answer:\nInsecure"),
    origin_code := some (.vstr "int x;"),
    index := some (.vint 7) }

/-- An eligible entry carrying the explicit index `7`. -/
def insecureItemIdx7 : PyItem := .obj insecureObj7

/-- A completion oracle that always succeeds with one fenced block. -/
def okOracle : String → Except String String :=
  fun _ => .ok "```c\nint main_ok;\n```"

/-- A descriptor-extraction oracle returning one descriptor. -/
def oneVulnAnalyze : String → Except Unit (List String) :=
  fun _ => .ok ["unchecked copy"]

/-- A patch-generation oracle returning one fenced block. -/
def fencedPatchRaw : String → String → String → String :=
  fun _ _ _ => "```c\nint y;\n```"

/-! ### Predicates used to state the claims -/

/-- The decision `process_model_dir` (cul_full_patched.py) applies to one
array element: a dict whose answer's final parsed verdict is `Insecure`. -/
def isInsecureRec (item : PyItem) : Bool :=
  match item with
  | .notDict => false
  | .obj o => CulFullPatched.parseFinalOfVal (o.answer.getD (.vstr "")) = "Insecure"

/-- The `index` value a record carries, if it is a dict with that key. -/
def itemIndex (item : PyItem) : Option PyVal :=
  match item with
  | .notDict => none
  | .obj o => o.index

/-- Whether a record's answer is judged `Secure` by `is_secure_answer`. -/
def itemSecure (item : PyItem) : Bool :=
  match item with
  | .notDict => false
  | .obj o => CulNPatched.isSecureOfVal (o.answer.getD (.vstr ""))

/-- Whether `process_entries` emits a variant for one descriptor: the
patch response must contain an extractable fenced block whose stripped
body is non-empty (Python truthiness of `variant_code`). -/
def variantEmitted (patchRaw : String → String → String → String)
    (origin_code analysis v_desc : String) : Bool :=
  match NPatch.extract_code_block_from_model (patchRaw origin_code analysis v_desc) with
  | none => false
  | some code => !(code = "")

/-! ### General lemmas: whitespace trimming -/

theorem dropWhile_ws_append_of_allWs (w l : List Char)
    (hw : ∀ c ∈ w, isWs c = true) :
    (w ++ l).dropWhile isWs = l.dropWhile isWs := by
  induction w with
  | nil => rfl
  | cons c w ih =>
    have hc : isWs c = true := hw c (List.mem_cons_self c w)
    simp only [List.cons_append, List.dropWhile_cons, hc, if_true]
    exact ih (fun d hd => hw d (List.mem_cons_of_mem c hd))

theorem dropWhile_ws_eq_nil_of_allWs (w : List Char)
    (hw : ∀ c ∈ w, isWs c = true) : w.dropWhile isWs = [] := by
  have h := dropWhile_ws_append_of_allWs w [] hw
  simpa using h

theorem dropWhile_ws_cons_of_not (c : Char) (l : List Char)
    (hc : isWs c = false) : (c :: l).dropWhile isWs = c :: l := by
  simp [List.dropWhile_cons, hc]

theorem dropWhile_append_of_ne_nil {p : Char → Bool} (x y : List Char)
    (h : x.dropWhile p ≠ []) :
    (x ++ y).dropWhile p = x.dropWhile p ++ y := by
  induction x with
  | nil => exact absurd rfl h
  | cons c x ih =>
    by_cases hc : p c = true
    · simp only [List.cons_append, List.dropWhile_cons, hc, if_true]
      simp only [List.dropWhile_cons, hc, if_true] at h
      exact ih h
    · have hc' : p c = false := by
        cases hpc : p c
        · rfl
        · exact absurd hpc hc
      simp [List.cons_append, List.dropWhile_cons, hc']

theorem trimR_append_of_allWs (l w : List Char)
    (hw : ∀ c ∈ w, isWs c = true) : trimR (l ++ w) = trimR l := by
  unfold trimR
  rw [List.reverse_append]
  rw [dropWhile_ws_append_of_allWs w.reverse l.reverse
    (fun c hc => hw c (List.mem_reverse.mp hc))]

theorem trimR_append_right (a b : List Char) (hb : trimR b ≠ []) :
    trimR (a ++ b) = a ++ trimR b := by
  have hb' : b.reverse.dropWhile isWs ≠ [] := by
    intro h
    apply hb
    unfold trimR
    rw [h]
    rfl
  unfold trimR
  rw [List.reverse_append, dropWhile_append_of_ne_nil _ _ hb',
    List.reverse_append, List.reverse_reverse]

theorem trimR_snoc_of_not (l : List Char) (c : Char) (hc : isWs c = false) :
    trimR (l ++ [c]) = l ++ [c] := by
  unfold trimR
  rw [List.reverse_append]
  simp only [List.reverse_cons, List.reverse_nil, List.nil_append,
    List.singleton_append, List.dropWhile_cons, hc]
  simp

theorem trimR_eq_nil_of_allWs (w : List Char)
    (hw : ∀ c ∈ w, isWs c = true) : trimR w = [] := by
  unfold trimR
  rw [dropWhile_ws_eq_nil_of_allWs w.reverse
    (fun c hc => hw c (List.mem_reverse.mp hc))]
  rfl

theorem pyStripL_append_allWs_left (w l : List Char)
    (hw : ∀ c ∈ w, isWs c = true) : pyStripL (w ++ l) = pyStripL l := by
  unfold pyStripL
  rw [dropWhile_ws_append_of_allWs w l hw]

theorem pyStripL_append_allWs_right (l w : List Char)
    (hw : ∀ c ∈ w, isWs c = true) : pyStripL (l ++ w) = pyStripL l := by
  unfold pyStripL
  by_cases hl : l.dropWhile isWs = []
  · have hall : ∀ c ∈ l, isWs c = true := by
      intro c hc
      exact List.dropWhile_eq_nil_iff.mp hl c hc
    rw [dropWhile_ws_append_of_allWs l w hall, hl,
      dropWhile_ws_eq_nil_of_allWs w hw]
  · rw [dropWhile_append_of_ne_nil l w hl, trimR_append_of_allWs _ w hw]

theorem strip_decomp (l : List Char) :
    ∃ w1 w2, l = w1 ++ pyStripL l ++ w2 ∧
      (∀ c ∈ w1, isWs c = true) ∧ (∀ c ∈ w2, isWs c = true) := by
  refine ⟨l.takeWhile isWs, ((l.dropWhile isWs).reverse.takeWhile isWs).reverse,
    ?_, ?_, ?_⟩
  · have h1 : l = l.takeWhile isWs ++ l.dropWhile isWs :=
      (List.takeWhile_append_dropWhile isWs l).symm
    have h2 : l.dropWhile isWs =
        pyStripL l ++ ((l.dropWhile isWs).reverse.takeWhile isWs).reverse := by
      have h3 : (l.dropWhile isWs).reverse =
          (l.dropWhile isWs).reverse.takeWhile isWs ++
            (l.dropWhile isWs).reverse.dropWhile isWs :=
        (List.takeWhile_append_dropWhile isWs (l.dropWhile isWs).reverse).symm
      calc l.dropWhile isWs = (l.dropWhile isWs).reverse.reverse := by
            rw [List.reverse_reverse]
        _ = ((l.dropWhile isWs).reverse.takeWhile isWs ++
              (l.dropWhile isWs).reverse.dropWhile isWs).reverse := by rw [← h3]
        _ = pyStripL l ++ ((l.dropWhile isWs).reverse.takeWhile isWs).reverse := by
            rw [List.reverse_append]
            rfl
    conv_lhs => rw [h1, h2]
    rw [List.append_assoc]
  · intro c hc
    exact List.mem_takeWhile_imp hc
  · intro c hc
    exact List.mem_takeWhile_imp (List.mem_reverse.mp hc)

theorem pyStripL_sandwich (w1 core w2 : List Char)
    (h1 : ∀ c ∈ w1, isWs c = true) (h2 : ∀ c ∈ w2, isWs c = true)
    (hd : core.dropWhile isWs = core) (ht : trimR core = core) :
    pyStripL (w1 ++ core ++ w2) = core := by
  rw [List.append_assoc, pyStripL_append_allWs_left w1 _ h1,
    pyStripL_append_allWs_right core w2 h2]
  unfold pyStripL
  rw [hd, ht]

theorem trimR_length_le (l : List Char) : (trimR l).length ≤ l.length := by
  unfold trimR
  calc (l.reverse.dropWhile isWs).reverse.length
      = (l.reverse.dropWhile isWs).length := List.length_reverse _
    _ ≤ l.reverse.length := (List.dropWhile_sublist isWs).length_le
    _ = l.length := List.length_reverse l

theorem stripStable_parts (l : List Char) (h : pyStripL l = l) :
    l.dropWhile isWs = l ∧ trimR l = l := by
  have hd : l.dropWhile isWs = l := by
    have hle1 : (pyStripL l).length ≤ (l.dropWhile isWs).length :=
      trimR_length_le (l.dropWhile isWs)
    have hle2 : (l.dropWhile isWs).length ≤ l.length :=
      (List.dropWhile_sublist isWs).length_le
    have hlen : (l.dropWhile isWs).length = l.length := by
      rw [h] at hle1
      omega
    have htw : l.takeWhile isWs ++ l.dropWhile isWs = l :=
      List.takeWhile_append_dropWhile isWs l
    have htw0 : (l.takeWhile isWs).length = 0 := by
      have := congrArg List.length htw
      simp only [List.length_append] at this
      omega
    have htwnil : l.takeWhile isWs = [] := List.length_eq_zero.mp htw0
    conv_rhs => rw [← htw, htwnil, List.nil_append]
  refine ⟨hd, ?_⟩
  have h2 := h
  unfold pyStripL at h2
  rw [hd] at h2
  exact h2

/-! ### General lemmas: splitting and joining on separators -/

theorem splitOnP_ne_nil (p : Char → Bool) (l : List Char) :
    splitOnP p l ≠ [] := by
  cases l with
  | nil => simp [splitOnP]
  | cons c l =>
    simp only [splitOnP]
    by_cases hc : p c = true
    · simp [hc]
    · have hc' : p c = false := by
        cases h : p c
        · rfl
        · exact absurd h hc
      simp only [hc']
      cases h : splitOnP p l <;> simp

theorem splitOnP_cons_sep (p : Char → Bool) (c : Char) (l : List Char)
    (hc : p c = true) : splitOnP p (c :: l) = [] :: splitOnP p l := by
  simp [splitOnP, hc]

theorem splitOnP_cons_not (p : Char → Bool) (c : Char) (l : List Char)
    (hc : p c = false) :
    splitOnP p (c :: l) =
      (c :: (splitOnP p l).headD []) :: (splitOnP p l).tail := by
  simp only [splitOnP, hc]
  cases h : splitOnP p l with
  | nil => exact absurd h (splitOnP_ne_nil p l)
  | cons a t => simp

theorem splitOnP_append_sep (p : Char → Bool) (a b : List Char) (x : Char)
    (hx : p x = true) :
    splitOnP p (a ++ x :: b) = splitOnP p a ++ splitOnP p b := by
  induction a with
  | nil =>
    rw [List.nil_append, splitOnP_cons_sep p x b hx]
    rfl
  | cons c a ih =>
    by_cases hc : p c = true
    · rw [List.cons_append, splitOnP_cons_sep p c _ hc, ih,
        splitOnP_cons_sep p c a hc, List.cons_append]
    · have hc' : p c = false := by
        cases h : p c
        · rfl
        · exact absurd h hc
      rw [List.cons_append, splitOnP_cons_not p c _ hc', ih,
        splitOnP_cons_not p c a hc']
      cases h : splitOnP p a with
      | nil => exact absurd h (splitOnP_ne_nil p a)
      | cons s t => simp

theorem splitOnP_eq_single (p : Char → Bool) (l : List Char)
    (h : ∀ c ∈ l, p c = false) : splitOnP p l = [l] := by
  induction l with
  | nil => rfl
  | cons c l ih =>
    rw [splitOnP_cons_not p c l (h c (List.mem_cons_self c l)),
      ih (fun d hd => h d (List.mem_cons_of_mem c hd))]
    rfl

theorem splitOnP_sepFree (p : Char → Bool) (l : List Char) :
    ∀ seg ∈ splitOnP p l, ∀ c ∈ seg, p c = false := by
  induction l with
  | nil =>
    intro seg hseg c hc
    simp [splitOnP] at hseg
    subst hseg
    exact absurd hc (List.not_mem_nil c)
  | cons d l ih =>
    intro seg hseg c hc
    by_cases hd : p d = true
    · rw [splitOnP_cons_sep p d l hd] at hseg
      rcases List.mem_cons.mp hseg with h | h
      · subst h
        exact absurd hc (List.not_mem_nil c)
      · exact ih seg h c hc
    · have hd' : p d = false := by
        cases h : p d
        · rfl
        · exact absurd h hd
      rw [splitOnP_cons_not p d l hd'] at hseg
      rcases List.mem_cons.mp hseg with h | h
      · subst h
        rcases List.mem_cons.mp hc with h | h
        · subst h
          exact hd'
        · have hhd : (splitOnP p l).headD [] ∈ splitOnP p l := by
            cases hl : splitOnP p l with
            | nil => exact absurd hl (splitOnP_ne_nil p l)
            | cons s t => simp
          exact ih _ hhd c h
      · have hmem : seg ∈ splitOnP p l := by
          cases hl : splitOnP p l with
          | nil => exact absurd hl (splitOnP_ne_nil p l)
          | cons s t =>
            rw [hl] at h
            exact hl ▸ List.mem_cons_of_mem s h
        exact ih seg hmem c hc

theorem splitOnP_joinNl (ls : List (List Char)) (hne : ls ≠ [])
    (h : ∀ seg ∈ ls, ∀ c ∈ seg, (decide (c = '\n')) = false) :
    splitOnP (fun c => decide (c = '\n')) (joinNl ls) = ls := by
  induction ls with
  | nil => exact absurd rfl hne
  | cons l ls ih =>
    cases ls with
    | nil =>
      simp only [joinNl]
      exact splitOnP_eq_single _ l (h l (List.mem_cons_self l []))
    | cons l2 ls2 =>
      have hjoin : joinNl (l :: l2 :: ls2) = l ++ '\n' :: joinNl (l2 :: ls2) := rfl
      rw [hjoin, splitOnP_append_sep _ l _ '\n' (by simp),
        splitOnP_eq_single _ l (h l (List.mem_cons_self l _)),
        ih (by simp) (fun seg hseg c hc => h seg (List.mem_cons_of_mem l hseg) c hc)]
      rfl

/-! ### General lemmas: searching -/

theorem lastMatch_succ (p : Nat → Bool) (n : Nat) :
    lastMatch p (n + 1) = if p n then some n else lastMatch p n := by
  unfold lastMatch
  rw [List.range_succ, List.foldl_append]
  cases h : p n <;> simp [h]

theorem lastMatch_eq_none_iff (p : Nat → Bool) (n : Nat) :
    lastMatch p n = none ↔ ∀ j, j < n → p j = false := by
  induction n with
  | zero =>
    constructor
    · intro _ j hj
      omega
    · intro _
      rfl
  | succ n ih =>
    rw [lastMatch_succ]
    by_cases hn : p n = true
    · simp only [hn, if_true]
      constructor
      · intro h
        exact absurd h (by simp)
      · intro h
        exact absurd (h n (by omega)) (by simp [hn])
    · have hn' : p n = false := by
        cases h : p n
        · rfl
        · exact absurd h hn
      simp only [hn']
      rw [if_neg (by simp)]
      rw [ih]
      constructor
      · intro h j hj
        by_cases hjn : j < n
        · exact h j hjn
        · have : j = n := by omega
          subst this
          exact hn'
      · intro h j hj
        exact h j (by omega)

theorem lastMatch_eq_some_iff (p : Nat → Bool) (n i : Nat) :
    lastMatch p n = some i ↔
      i < n ∧ p i = true ∧ ∀ j, i < j → j < n → p j = false := by
  induction n with
  | zero =>
    constructor
    · intro h
      exact absurd h (by simp [lastMatch])
    · intro ⟨h, _, _⟩
      omega
  | succ n ih =>
    rw [lastMatch_succ]
    by_cases hn : p n = true
    · rw [if_pos hn]
      constructor
      · intro h
        have hi : i = n := by
          have := Option.some.inj h
          omega
        subst hi
        exact ⟨by omega, hn, fun j h1 h2 => by omega⟩
      · intro ⟨h1, h2, h3⟩
        by_cases hin : i = n
        · subst hin
          rfl
        · have hilt : i < n := by omega
          exact absurd hn (by simp [h3 n hilt (by omega)])
    · have hn' : p n = false := by
        cases h : p n
        · rfl
        · exact absurd h hn
      rw [if_neg (by simp [hn'])]
      rw [ih]
      constructor
      · intro ⟨h1, h2, h3⟩
        refine ⟨by omega, h2, fun j hj1 hj2 => ?_⟩
        by_cases hjn : j < n
        · exact h3 j hj1 hjn
        · have : j = n := by omega
          subst this
          exact hn'
      · intro ⟨h1, h2, h3⟩
        have hin : i ≠ n := by
          intro h
          subst h
          exact absurd h2 (by simp [hn'])
        exact ⟨by omega, h2, fun j hj1 hj2 => h3 j hj1 (by omega)⟩

theorem pyFindIdx_eq_some_prop {α : Type} (p : α → Bool) (l : List α)
    (i : Nat) (d : α) (h : pyFindIdx p l = some i) :
    i < l.length ∧ p (l.getD i d) = true := by
  induction l generalizing i with
  | nil => exact absurd h (by simp [pyFindIdx])
  | cons a l ih =>
    by_cases ha : p a = true
    · simp only [pyFindIdx, ha, if_true] at h
      have : i = 0 := (Option.some.inj h).symm
      subst this
      exact ⟨by simp, by simpa using ha⟩
    · have ha' : p a = false := by
        cases hpa : p a
        · rfl
        · exact absurd hpa ha
      simp only [pyFindIdx, ha', Bool.false_eq_true, if_false] at h
      cases hrec : pyFindIdx p l with
      | none => rw [hrec] at h; exact absurd h (by simp)
      | some k =>
        rw [hrec] at h
        have hik : i = k + 1 := by
          simp only [Option.map_some'] at h
          have h2 := Option.some.inj h
          omega
        subst hik
        obtain ⟨h1, h2⟩ := ih k hrec
        exact ⟨by simpa using h1, by simpa using h2⟩

theorem isPrefixOf_append_left (pat a b : List Char)
    (h : pat.length ≤ a.length) :
    pat.isPrefixOf (a ++ b) = pat.isPrefixOf a := by
  induction pat generalizing a with
  | nil => simp [List.isPrefixOf]
  | cons p ps ih =>
    cases a with
    | nil => simp at h
    | cons x xs =>
      simp only [List.cons_append, List.isPrefixOf, List.append_eq]
      rw [ih xs (by simpa using h)]

theorem isPrefixOf_append_weaken (pat x y : List Char)
    (h : pat.isPrefixOf x = true) : pat.isPrefixOf (x ++ y) = true := by
  induction pat generalizing x with
  | nil => simp [List.isPrefixOf]
  | cons p ps ih =>
    cases x with
    | nil => simp [List.isPrefixOf] at h
    | cons c xs =>
      simp only [List.cons_append, List.isPrefixOf, Bool.and_eq_true] at h ⊢
      exact ⟨h.1, ih xs h.2⟩

theorem firstSubIdx_append (pat a b : List Char) (k : Nat)
    (hpat : pat ≠ []) (h : firstSubIdx pat a = some k)
    (hk : k + pat.length ≤ a.length) :
    firstSubIdx pat (a ++ b) = some k := by
  induction a generalizing k with
  | nil =>
    have hx : pat.isPrefixOf [] = false := by
      cases pat with
      | nil => exact absurd rfl hpat
      | cons p ps => rfl
    simp [firstSubIdx, firstIdxWhere, hx] at h
  | cons c a ih =>
    rw [List.cons_append]
    by_cases hpre : pat.isPrefixOf (c :: a) = true
    · have hk0 : k = 0 := by
        simp only [firstSubIdx, firstIdxWhere, hpre, if_true] at h
        exact (Option.some.inj h).symm
      subst hk0
      have hpb : pat.isPrefixOf (c :: (a ++ b)) = true := by
        have h2 := isPrefixOf_append_weaken pat (c :: a) b hpre
        rw [List.cons_append] at h2
        exact h2
      simp only [firstSubIdx, firstIdxWhere, hpb, if_true]
    · have hpre' : pat.isPrefixOf (c :: a) = false := by
        cases hp : pat.isPrefixOf (c :: a)
        · rfl
        · exact absurd hp hpre
      simp only [firstSubIdx, firstIdxWhere, hpre', Bool.false_eq_true,
        if_false] at h
      cases hrec : firstIdxWhere (fun suf => pat.isPrefixOf suf) a with
      | none => rw [hrec] at h; exact absurd h (by simp)
      | some k2 =>
        rw [hrec] at h
        have hkk : k = k2 + 1 := by
          simp only [Option.map_some'] at h
          have h2 := Option.some.inj h
          omega
        subst hkk
        have hprefb : pat.isPrefixOf (c :: (a ++ b)) = false := by
          have hlen : pat.length ≤ (c :: a).length := by
            simp only [List.length_cons] at hk ⊢
            omega
          have h3 := isPrefixOf_append_left pat (c :: a) b hlen
          rw [List.cons_append] at h3
          rw [h3]
          exact hpre'
        have hih := ih k2 hrec (by simp only [List.length_cons] at hk; omega)
        simp only [firstSubIdx] at hih
        simp only [firstSubIdx, firstIdxWhere, hprefb, Bool.false_eq_true,
          if_false, hih]
        rfl

/-! ### The verdict extractors on texts ending in an answer block -/

theorem toList_asString (l : List Char) : (l.asString).toList = l := rfl

theorem asString_inj (a b : List Char) (h : a.asString = b.asString) : a = b := by
  have h2 := congrArg String.toList h
  simpa [toList_asString] using h2

theorem ansLinesChars_block (X H Y : List Char)
    (hH1 : ∀ c ∈ H, decide (c = '\n') = false)
    (hY1 : ∀ c ∈ Y, decide (c = '\n') = false) :
    ansLinesChars (X ++ ('\n' :: (H ++ ('\n' :: Y)))) =
      ansLinesChars X ++
        [H.filter (fun c => c ≠ '\r'), Y.filter (fun c => c ≠ '\r')] := by
  unfold ansLinesChars
  rw [splitOnP_append_sep (fun c => decide (c = '\n')) X (H ++ '\n' :: Y) '\n'
      (by simp),
    splitOnP_append_sep (fun c => decide (c = '\n')) H Y '\n' (by simp),
    splitOnP_eq_single (fun c => decide (c = '\n')) H hH1,
    splitOnP_eq_single (fun c => decide (c = '\n')) Y hY1]
  simp [List.map_append]

theorem lastMatch_getD_append2 (A : List (List Char)) (h y : List Char)
    (hh : pyStripL h = answerHdr) (hy : pyStripL y ≠ answerHdr) :
    lastMatch (fun i => pyStripL ((A ++ [h, y]).getD i []) = answerHdr)
      (A ++ [h, y]).length = some A.length := by
  rw [lastMatch_eq_some_iff]
  have hlen : (A ++ [h, y]).length = A.length + 2 := by simp
  have hgdh : (A ++ [h, y]).getD A.length [] = h := by
    rw [List.getD_append_right]
    · simp
    · omega
  have hgdy : (A ++ [h, y]).getD (A.length + 1) [] = y := by
    rw [List.getD_append_right]
    · simp
    · omega
  refine ⟨by omega, ?_, ?_⟩
  · have hb : decide (pyStripL ((A ++ [h, y]).getD A.length []) = answerHdr)
        = true := by
      rw [hgdh, hh]
      simp
    exact hb
  · intro j hj1 hj2
    rw [hlen] at hj2
    have hj : j = A.length + 1 := by omega
    subst hj
    have hb : decide (pyStripL ((A ++ [h, y]).getD (A.length + 1) [])
        = answerHdr) = false := by
      rw [hgdy]
      exact decide_eq_false hy
    exact hb

theorem parse_final_block (X H Y : List Char)
    (hH1 : ∀ c ∈ H, decide (c = '\n') = false)
    (hH2 : pyStripL (H.filter (fun c => c ≠ '\r')) = answerHdr)
    (hY1 : ∀ c ∈ Y, decide (c = '\n') = false)
    (hY2 : pyStripL (Y.filter (fun c => c ≠ '\r')) ≠ answerHdr) :
    CulFullPatched.parse_final_answer
      ((X ++ ('\n' :: (H ++ ('\n' :: Y)))).asString) =
      (pyStripL (Y.filter (fun c => c ≠ '\r'))).asString := by
  unfold CulFullPatched.parse_final_answer
  simp only [toList_asString, ansLinesChars_block X H Y hH1 hY1,
    lastMatch_getD_append2 (ansLinesChars X) _ _ hH2 hY2]
  have hlen : (ansLinesChars X ++
      [H.filter (fun c => c ≠ '\r'), Y.filter (fun c => c ≠ '\r')]).length =
      (ansLinesChars X).length + 2 := by simp
  have hgd : (ansLinesChars X ++
      [H.filter (fun c => c ≠ '\r'), Y.filter (fun c => c ≠ '\r')]).getD
      ((ansLinesChars X).length + 1) [] = Y.filter (fun c => c ≠ '\r') := by
    rw [List.getD_append_right]
    · simp
    · omega
  rw [if_neg (by omega), hgd]

theorem is_secure_eq_parse (s : String) :
    CulNPatched.is_secure_answer s =
      decide (CulFullPatched.parse_final_answer s = "Secure") := by
  unfold CulNPatched.is_secure_answer CulFullPatched.parse_final_answer
  cases hlm : lastMatch
      (fun i => pyStripL ((ansLinesChars s.toList).getD i []) = answerHdr)
      (ansLinesChars s.toList).length with
  | none => simp
  | some li =>
    by_cases hle : li + 1 ≥ (ansLinesChars s.toList).length
    · have hle2 : (ansLinesChars s.toList).length ≤ li + 1 := hle
      simp only [String.toList] at hle2
      simp [hle2]
    · have hiff : (pyStripL ((ansLinesChars s.toList).getD (li + 1) [])).asString
          = "Secure" ↔
          pyStripL ((ansLinesChars s.toList).getD (li + 1) []) = secureTok := by
        constructor
        · intro h
          exact asString_inj _ _ (by rw [h]; rfl)
        · intro h
          rw [h]
          rfl
      simp only [hle, if_false, hiff]

/-! ### Structure of validator and coercion outputs -/

theorem take_succ_getD {α : Type} (l : List α) (i : Nat) (d : α)
    (h : i < l.length) : l.take (i + 1) = l.take i ++ [l.getD i d] := by
  induction l generalizing i with
  | nil => simp at h
  | cons a l ih =>
    cases i with
    | zero => simp
    | succ i =>
      simp only [List.take_succ_cons, List.length_cons] at h ⊢
      rw [ih i (by omega)]
      rfl

theorem joinNl_append_single (A : List (List Char)) (H : List Char)
    (hA : A ≠ []) : joinNl (A ++ [H]) = joinNl A ++ '\n' :: H := by
  induction A with
  | nil => exact absurd rfl hA
  | cons x A ih =>
    cases A with
    | nil => rfl
    | cons y A2 =>
      have hstep : joinNl (x :: (y :: A2 ++ [H])) =
          x ++ '\n' :: joinNl (y :: A2 ++ [H]) := rfl
      rw [List.cons_append, hstep, ih (by simp)]
      simp [joinNl, List.append_assoc]

theorem getD_mem {α : Type} (l : List α) (i : Nat) (d : α)
    (h : i < l.length) : l.getD i d ∈ l := by
  rw [List.getD_eq_getElem l d h]
  exact List.getElem_mem h

theorem pySplitlines_mem (l : List Char) (seg : List Char)
    (h : seg ∈ pySplitlines l) : seg ∈ splitOnP (fun c => decide (c = '\n')) l := by
  unfold pySplitlines at h
  by_cases hl : l = []
  · rw [if_pos hl] at h
    exact absurd h (List.not_mem_nil seg)
  · rw [if_neg hl] at h
    by_cases hlast : (splitOnP (fun c => decide (c = '\n')) l).getLast? = some []
    · rw [if_pos hlast] at h
      exact (List.dropLast_sublist _).subset h
    · rw [if_neg hlast] at h
      exact h

theorem pySplitlines_sepFree (l : List Char) (seg : List Char)
    (h : seg ∈ pySplitlines l) : ∀ c ∈ seg, decide (c = '\n') = false :=
  splitOnP_sepFree _ l seg (pySplitlines_mem l seg h)

theorem validateSplit_none (head : List Char) (tls : List (List Char))
    (hfi : pyFindIdx (fun ln => pyStripL ln = answerHdr) tls = none) :
    RunFullPatched.validateSplit head tls = [] := by
  unfold RunFullPatched.validateSplit
  rw [hfi]

theorem validateSplit_eq_found (head : List Char) (tls : List (List Char))
    (ansIdx : Nat)
    (hfi : pyFindIdx (fun ln => pyStripL ln = answerHdr) tls = some ansIdx)
    (hlast : ¬ ansIdx = tls.length - 1)
    (htok : pyStripL (tls.getD (ansIdx + 1) []) = secureTok ∨
        pyStripL (tls.getD (ansIdx + 1) []) = insecureTok) :
    RunFullPatched.validateSplit head tls =
      head ++ '\n' :: joinNl (tls.take (ansIdx + 1)) ++
        '\n' :: pyStripL (tls.getD (ansIdx + 1) []) := by
  unfold RunFullPatched.validateSplit
  rw [hfi]
  show (if ansIdx = tls.length - 1 then [] else
    if pyStripL (tls.getD (ansIdx + 1) []) = secureTok ∨
        pyStripL (tls.getD (ansIdx + 1) []) = insecureTok then
      head ++ '\n' :: joinNl (tls.take (ansIdx + 1)) ++
        '\n' :: pyStripL (tls.getD (ansIdx + 1) [])
    else []) = _
  rw [if_neg hlast, if_pos htok]

theorem validateSplit_lastIdx (head : List Char) (tls : List (List Char))
    (ansIdx : Nat)
    (hfi : pyFindIdx (fun ln => pyStripL ln = answerHdr) tls = some ansIdx)
    (hlast : ansIdx = tls.length - 1) :
    RunFullPatched.validateSplit head tls = [] := by
  unfold RunFullPatched.validateSplit
  rw [hfi]
  show (if ansIdx = tls.length - 1 then [] else
    if pyStripL (tls.getD (ansIdx + 1) []) = secureTok ∨
        pyStripL (tls.getD (ansIdx + 1) []) = insecureTok then
      head ++ '\n' :: joinNl (tls.take (ansIdx + 1)) ++
        '\n' :: pyStripL (tls.getD (ansIdx + 1) [])
    else []) = _
  rw [if_pos hlast]

theorem validateSplit_badTok (head : List Char) (tls : List (List Char))
    (ansIdx : Nat)
    (hfi : pyFindIdx (fun ln => pyStripL ln = answerHdr) tls = some ansIdx)
    (hlast : ¬ ansIdx = tls.length - 1)
    (htok : ¬ (pyStripL (tls.getD (ansIdx + 1) []) = secureTok ∨
        pyStripL (tls.getD (ansIdx + 1) []) = insecureTok)) :
    RunFullPatched.validateSplit head tls = [] := by
  unfold RunFullPatched.validateSplit
  rw [hfi]
  show (if ansIdx = tls.length - 1 then [] else
    if pyStripL (tls.getD (ansIdx + 1) []) = secureTok ∨
        pyStripL (tls.getD (ansIdx + 1) []) = insecureTok then
      head ++ '\n' :: joinNl (tls.take (ansIdx + 1)) ++
        '\n' :: pyStripL (tls.getD (ansIdx + 1) [])
    else []) = _
  rw [if_neg hlast, if_neg htok]

theorem validateSplit_shape (head : List Char) (tls : List (List Char))
    (hsep : ∀ seg ∈ tls, ∀ c ∈ seg, decide (c = '\n') = false)
    (h : RunFullPatched.validateSplit head tls ≠ []) :
    ∃ X H Y, RunFullPatched.validateSplit head tls =
        X ++ ('\n' :: (H ++ ('\n' :: Y))) ∧
      (∀ c ∈ H, decide (c = '\n') = false) ∧ pyStripL H = answerHdr ∧
      (Y = secureTok ∨ Y = insecureTok) := by
  cases hfi : pyFindIdx (fun ln => pyStripL ln = answerHdr) tls with
  | none => exact absurd (validateSplit_none head tls hfi) h
  | some ansIdx =>
    by_cases hlast : ansIdx = tls.length - 1
    · exact absurd (validateSplit_lastIdx head tls ansIdx hfi hlast) h
    · by_cases htok : pyStripL (tls.getD (ansIdx + 1) []) = secureTok ∨
          pyStripL (tls.getD (ansIdx + 1) []) = insecureTok
      · obtain ⟨hlt, hmatch⟩ := pyFindIdx_eq_some_prop
          (fun ln => pyStripL ln = answerHdr) tls ansIdx [] hfi
        have hmatch2 : pyStripL (tls.getD ansIdx []) = answerHdr := by
          simpa using hmatch
        have hHsep : ∀ c ∈ tls.getD ansIdx [], decide (c = '\n') = false :=
          hsep _ (getD_mem tls ansIdx [] hlt)
        have htake : tls.take (ansIdx + 1) =
            tls.take ansIdx ++ [tls.getD ansIdx []] :=
          take_succ_getD tls ansIdx [] hlt
        rw [validateSplit_eq_found head tls ansIdx hfi hlast htok] at h ⊢
        by_cases hA : tls.take ansIdx = []
        · refine ⟨head, tls.getD ansIdx [], pyStripL (tls.getD (ansIdx + 1) []),
            ?_, hHsep, hmatch2, htok⟩
          rw [htake, hA, List.nil_append]
          simp [joinNl, List.append_assoc]
        · refine ⟨head ++ ('\n' :: joinNl (tls.take ansIdx)),
            tls.getD ansIdx [], pyStripL (tls.getD (ansIdx + 1) []),
            ?_, hHsep, hmatch2, htok⟩
          rw [htake, joinNl_append_single _ _ hA]
          simp [List.append_assoc]
      · exact absurd (validateSplit_badTok head tls ansIdx hfi hlast htok) h

theorem validateTail_none (t : List Char)
    (hf : firstSubIdx answerHdr t = none) :
    RunFullPatched.validateTail t = [] := by
  unfold RunFullPatched.validateTail
  rw [hf]

theorem validateTail_found (t : List Char) (idxAns : Nat)
    (hf : firstSubIdx answerHdr t = some idxAns) :
    RunFullPatched.validateTail t =
      RunFullPatched.validateSplit (trimR (t.take idxAns))
        (pySplitlines (t.drop idxAns)) := by
  unfold RunFullPatched.validateTail
  rw [hf]

theorem validateChars_anchor_none (l : List Char) (hl : ¬ l = [])
    (ha : RunFullPatched.anchorReason (pyStripL l) = none) :
    RunFullPatched.validateChars l = [] := by
  unfold RunFullPatched.validateChars
  rw [if_neg hl, ha]

theorem validateChars_anchor_some (l t : List Char) (hl : ¬ l = [])
    (ha : RunFullPatched.anchorReason (pyStripL l) = some t) :
    RunFullPatched.validateChars l = RunFullPatched.validateTail t := by
  unfold RunFullPatched.validateChars
  rw [if_neg hl, ha]

theorem validateChars_shape (l : List Char)
    (h : RunFullPatched.validateChars l ≠ []) :
    ∃ X H Y, RunFullPatched.validateChars l =
        X ++ ('\n' :: (H ++ ('\n' :: Y))) ∧
      (∀ c ∈ H, decide (c = '\n') = false) ∧ pyStripL H = answerHdr ∧
      (Y = secureTok ∨ Y = insecureTok) := by
  by_cases hl : l = []
  · subst hl
    exact absurd rfl h
  · cases ha : RunFullPatched.anchorReason (pyStripL l) with
    | none => exact absurd (validateChars_anchor_none l hl ha) h
    | some t =>
      rw [validateChars_anchor_some l t hl ha] at h ⊢
      cases hf : firstSubIdx answerHdr t with
      | none => exact absurd (validateTail_none t hf) h
      | some idxAns =>
        rw [validateTail_found t idxAns hf] at h ⊢
        exact validateSplit_shape _ _
          (fun seg hseg => pySplitlines_sepFree _ seg hseg) h

theorem pyStripL_filterCR_of_eq (H tgt : List Char) (h : pyStripL H = tgt)
    (htf : tgt.filter (fun c => c ≠ '\r') = tgt)
    (hd : tgt.dropWhile isWs = tgt) (ht : trimR tgt = tgt) :
    pyStripL (H.filter (fun c => c ≠ '\r')) = tgt := by
  obtain ⟨w1, w2, hdec, hw1, hw2⟩ := strip_decomp H
  rw [h] at hdec
  rw [hdec, List.filter_append, List.filter_append, htf]
  exact pyStripL_sandwich _ tgt _
    (fun c hc => hw1 c (List.mem_of_mem_filter hc))
    (fun c hc => hw2 c (List.mem_of_mem_filter hc)) hd ht

theorem parse_final_validate (l : List Char)
    (h : RunFullPatched.validateChars l ≠ []) :
    CulFullPatched.parse_final_answer ((RunFullPatched.validateChars l).asString)
        = "Secure" ∨
      CulFullPatched.parse_final_answer
        ((RunFullPatched.validateChars l).asString) = "Insecure" := by
  obtain ⟨X, H, Y, heq, hH1, hH2, hY⟩ := validateChars_shape l h
  have hH2f : pyStripL (H.filter (fun c => c ≠ '\r')) = answerHdr :=
    pyStripL_filterCR_of_eq H answerHdr hH2 (by decide) (by decide) (by decide)
  rw [heq]
  cases hY with
  | inl h1 =>
    subst h1
    left
    rw [parse_final_block X H secureTok hH1 hH2f (by decide) (by decide)]
    decide
  | inr h1 =>
    subst h1
    right
    rw [parse_final_block X H insecureTok hH1 hH2f (by decide) (by decide)]
    decide

theorem coerceChars_block (raw : List Char) :
    RunFullPatched.coerceChars raw =
      (reasonHdr ++
        ('\n' ::
          (joinNl (RunFullPatched.numberBullets
            ((RunFullPatched.coerceBullets raw).take 5)) ++ ['\n']))) ++
      ('\n' :: (answerHdr ++ ('\n' :: insecureTok))) := by
  unfold RunFullPatched.coerceChars
  simp [List.append_assoc]

theorem parse_final_coerce (raw_text : String) :
    CulFullPatched.parse_final_answer
      (RunFullPatched.coerce_to_template raw_text) = "Insecure" := by
  unfold RunFullPatched.coerce_to_template
  rw [coerceChars_block]
  rw [parse_final_block _ answerHdr insecureTok (by decide) (by decide)
    (by decide) (by decide)]
  decide

/-! ### The strict validator on a well-formed prefix with arbitrary junk -/

theorem trimR_eq_nil_allWs (junk : List Char) (hj : trimR junk = []) :
    ∀ c ∈ junk, isWs c = true := by
  intro c hc
  have h1 : junk.reverse.dropWhile isWs = [] := by
    have := congrArg List.reverse hj
    unfold trimR at this
    simpa using this
  exact List.dropWhile_eq_nil_iff.mp h1 c (List.mem_reverse.mpr hc)

theorem validate_prefix_junk (junk : List Char) :
    RunFullPatched.validateChars
        ("# Reasoning:\n1. x\n# Answer:\nSecure\n".toList ++ junk) =
      "# Reasoning:\n1. x\n# Answer:\nSecure".toList := by
  have hne : "# Reasoning:\n1. x\n# Answer:\nSecure\n".toList ++ junk ≠ [] := by
    simp
  by_cases hj : trimR junk = []
  · -- all-whitespace junk: the strip collapses to a concrete text
    have hstrip : pyStripL ("# Reasoning:\n1. x\n# Answer:\nSecure\n".toList ++ junk)
        = "# Reasoning:\n1. x\n# Answer:\nSecure".toList := by
      rw [pyStripL_append_allWs_right _ junk (trimR_eq_nil_allWs junk hj)]
      decide
    rw [validateChars_anchor_some _
      "# Reasoning:\n1. x\n# Answer:\nSecure".toList hne
      (by rw [hstrip]; decide)]
    decide
  · -- junk with trailing content: the strip keeps the prefix and rstrips junk
    have hstrip : pyStripL ("# Reasoning:\n1. x\n# Answer:\nSecure\n".toList ++ junk)
        = "# Reasoning:\n1. x\n# Answer:\nSecure\n".toList ++ trimR junk := by
      unfold pyStripL
      have hhd : ("# Reasoning:\n1. x\n# Answer:\nSecure\n".toList ++ junk).dropWhile
          isWs = "# Reasoning:\n1. x\n# Answer:\nSecure\n".toList ++ junk := by
        have hshape : "# Reasoning:\n1. x\n# Answer:\nSecure\n".toList ++ junk =
            '#' :: (" Reasoning:\n1. x\n# Answer:\nSecure\n".toList ++ junk) := rfl
        rw [hshape, dropWhile_ws_cons_of_not _ _ (by decide)]
      rw [hhd, trimR_append_right _ junk hj]
    have hanch : RunFullPatched.anchorReason
        (pyStripL ("# Reasoning:\n1. x\n# Answer:\nSecure\n".toList ++ junk)) =
        some ("# Reasoning:\n1. x\n# Answer:\nSecure\n".toList ++ trimR junk) := by
      rw [hstrip]
      unfold RunFullPatched.anchorReason
      rw [if_pos]
      rw [isPrefixOf_append_left reasonHdr _ (trimR junk) (by decide)]
      decide
    rw [validateChars_anchor_some _ _ hne hanch]
    have hfs : firstSubIdx answerHdr
        ("# Reasoning:\n1. x\n# Answer:\nSecure\n".toList ++ trimR junk) =
        some 18 :=
      firstSubIdx_append answerHdr _ (trimR junk) 18 (by decide) (by decide)
        (by decide)
    rw [validateTail_found _ 18 hfs]
    have htake : trimR (("# Reasoning:\n1. x\n# Answer:\nSecure\n".toList ++
        trimR junk).take 18) = "# Reasoning:\n1. x".toList := by
      rw [List.take_append_eq_append_take]
      have h0 : 18 - "# Reasoning:\n1. x\n# Answer:\nSecure\n".toList.length = 0 := by
        decide
      rw [h0, List.take_zero, List.append_nil]
      decide
    have hdrop : ("# Reasoning:\n1. x\n# Answer:\nSecure\n".toList ++
        trimR junk).drop 18 = "# Answer:\nSecure\n".toList ++ trimR junk := by
      rw [List.drop_append_eq_append_drop]
      have h0 : 18 - "# Reasoning:\n1. x\n# Answer:\nSecure\n".toList.length = 0 := by
        decide
      rw [h0, List.drop_zero]
      rfl
    rw [htake, hdrop]
    obtain ⟨rest, hrest⟩ : ∃ rest,
        pySplitlines ("# Answer:\nSecure\n".toList ++ trimR junk) =
          "# Answer:".toList :: "Secure".toList :: rest := by
      have hform : "# Answer:\nSecure\n".toList ++ trimR junk =
          "# Answer:".toList ++ '\n' :: ("Secure".toList ++ '\n' :: trimR junk) := by
        simp
      have hsplit : splitOnP (fun c => decide (c = '\n'))
          ("# Answer:\nSecure\n".toList ++ trimR junk) =
          "# Answer:".toList :: "Secure".toList ::
            splitOnP (fun c => decide (c = '\n')) (trimR junk) := by
        rw [hform,
          splitOnP_append_sep (fun c => decide (c = '\n')) "# Answer:".toList
            ("Secure".toList ++ '\n' :: trimR junk) '\n' (by simp),
          splitOnP_append_sep (fun c => decide (c = '\n')) "Secure".toList
            (trimR junk) '\n' (by simp),
          splitOnP_eq_single _ "# Answer:".toList (by decide),
          splitOnP_eq_single _ "Secure".toList (by decide)]
        rfl
      unfold pySplitlines
      rw [if_neg (by simp), hsplit]
      by_cases hlast : (("# Answer:".toList :: "Secure".toList ::
          splitOnP (fun c => decide (c = '\n')) (trimR junk)) :
          List (List Char)).getLast? = some []
      · rw [if_pos hlast]
        cases hS : splitOnP (fun c => decide (c = '\n')) (trimR junk) with
        | nil => exact absurd hS (splitOnP_ne_nil _ _)
        | cons s S2 =>
          exact ⟨(s :: S2).dropLast, by simp⟩
      · rw [if_neg hlast]
        exact ⟨splitOnP (fun c => decide (c = '\n')) (trimR junk), rfl⟩
    rw [hrest]
    have hfi0 : pyFindIdx (fun ln => pyStripL ln = answerHdr)
        ("# Answer:".toList :: "Secure".toList :: rest) = some 0 := by
      unfold pyFindIdx
      rw [if_pos]
      decide
    have hg1 : (("# Answer:".toList :: "Secure".toList :: rest) :
        List (List Char)).getD 1 [] = "Secure".toList := rfl
    rw [validateSplit_eq_found _ _ 0 hfi0
      (by
        intro h0
        have hlen : (("# Answer:".toList :: "Secure".toList :: rest) :
            List (List Char)).length = rest.length + 2 := by simp
        omega)
      (by rw [hg1]; left; decide)]
    rw [hg1]
    have htk : List.take (0 + 1)
        ("# Answer:".toList :: "Secure".toList :: rest) =
        ["# Answer:".toList] := rfl
    rw [htk]
    decide

/-! ### The order-explicit gather model -/

theorem foldl_set_spec {β : Type} (task : Nat → Option β) (order : List Nat)
    (init : List (Option (Option β))) (j : Nat) :
    ((order.foldl (fun slots i => slots.set i (some (task i))) init).length
        = init.length) ∧
      (j ∈ order → j < init.length →
        (order.foldl (fun slots i => slots.set i (some (task i))) init)[j]?
          = some (some (task j))) ∧
      (j ∉ order →
        (order.foldl (fun slots i => slots.set i (some (task i))) init)[j]?
          = init[j]?) := by
  induction order generalizing init with
  | nil =>
    refine ⟨rfl, ?_, ?_⟩
    · intro hmem _
      exact absurd hmem (List.not_mem_nil j)
    · intro _
      rfl
  | cons o os ih =>
    obtain ⟨ihlen, ihmem, ihnot⟩ := ih (init.set o (some (task o)))
    refine ⟨by rw [List.foldl_cons, ihlen, List.length_set], ?_, ?_⟩
    · intro hmem hj
      rw [List.foldl_cons]
      by_cases hos : j ∈ os
      · exact ihmem hos (by rw [List.length_set]; exact hj)
      · have hjo : j = o := by
          rcases List.mem_cons.mp hmem with h | h
          · exact h
          · exact absurd h hos
        subst hjo
        rw [ihnot hos]
        exact List.getElem?_set_eq_of_lt _ hj
    · intro hnot
      rw [List.foldl_cons]
      have hjo : j ≠ o := fun h => hnot (h ▸ List.mem_cons_self j os)
      have hos : j ∉ os := fun h => hnot (List.mem_cons_of_mem o h)
      rw [ihnot hos, List.getElem?_set_ne (fun h => hjo h.symm)]

theorem gatherSlots_eq_map {β : Type} (task : Nat → Option β) (n : Nat)
    (order : List Nat) (h : ∀ i, i < n → i ∈ order) :
    FullPatch.gatherSlots task n order = (List.range n).map task := by
  unfold FullPatch.gatherSlots
  apply List.ext_getElem?
  intro j
  obtain ⟨hlen, hmem, _⟩ :=
    foldl_set_spec task order (List.replicate n (none : Option (Option β))) j
  rw [List.getElem?_map, List.getElem?_map]
  by_cases hj : j < n
  · rw [hmem (h j hj) (by simpa using hj), List.getElem?_range hj]
    rfl
  · have h1 : (order.foldl (fun slots i => slots.set i (some (task i)))
        (List.replicate n (none : Option (Option β))))[j]? = none := by
      apply List.getElem?_eq_none
      rw [hlen, List.length_replicate]
      omega
    rw [h1, List.getElem?_eq_none (by rw [List.length_range]; omega)]
    rfl

theorem range_map_getD {α β : Type} (l : List α) (d : α) (f : α → β) :
    (List.range l.length).map (fun i => f (l.getD i d)) = l.map f := by
  apply List.ext_getElem
  · simp
  · intro j h1 h2
    have hj : j < l.length := by simpa using h2
    rw [List.getElem_map, List.getElem_map, List.getElem_range,
      List.getD_eq_getElem l d hj]

theorem length_filterMap_eq_countP {α β : Type} (f : α → Option β)
    (l : List α) :
    (l.filterMap f).length = l.countP (fun a => (f a).isSome) := by
  induction l with
  | nil => rfl
  | cons a l ih =>
    rw [List.filterMap_cons, List.countP_cons]
    cases hf : f a with
    | none => simp [hf, ih]
    | some b => simp [hf, ih]

theorem process_item_isSome (oracle : String → Except String String)
    (item : PyItem) :
    (FullPatch.process_item oracle item).isSome = FullPatch.itemEligible item := by
  cases item with
  | notDict => rfl
  | obj o =>
    unfold FullPatch.process_item FullPatch.itemEligible
    cases hans : o.answer.getD (.vstr "") with
    | vother => simp [hans]
    | vint n => simp [hans]
    | vstr a =>
      simp only [hans]
      by_cases hm : containsSub a insecureMarker = true
      · cases hoc : o.origin_code.getD (.vstr "") with
        | vother => simp [hoc, hm]
        | vint n => simp [hoc, hm]
        | vstr c =>
          simp only [hoc]
          by_cases hc : pyStripL c.data = []
          · simp [hm, hc, List.isEmpty_iff]
          · cases horacle : oracle a with
            | ok r => simp [hm, hc, horacle, List.isEmpty_iff]
            | error e => simp [hm, hc, horacle, List.isEmpty_iff]
      · simp [hm]

/-! ### Coverage aggregation lemmas -/

theorem cov_merge_obj_some (st : CulNPatched.CovState) (o : ItemObj)
    (idx : PyVal) (h : o.index = some idx) :
    CulNPatched.cov_merge st (.obj o) =
      (if CulNPatched.isSecureOfVal (o.answer.getD (.vstr "")) then
        { all_indices := insert idx st.all_indices,
          keys := insert idx st.keys,
          val := Function.update st.val idx true }
      else if idx ∈ st.keys then
        { st with all_indices := insert idx st.all_indices }
      else
        { all_indices := insert idx st.all_indices,
          keys := insert idx st.keys,
          val := Function.update st.val idx false } : CulNPatched.CovState) := by
  simp only [CulNPatched.cov_merge, h]

theorem cov_merge_idem (st : CulNPatched.CovState) (item : PyItem) :
    CulNPatched.cov_merge (CulNPatched.cov_merge st item) item =
      CulNPatched.cov_merge st item := by
  cases item with
  | notDict => rfl
  | obj o =>
    cases hidx : o.index with
    | none =>
      have h1 : ∀ s : CulNPatched.CovState,
          CulNPatched.cov_merge s (.obj o) = s := by
        intro s
        simp only [CulNPatched.cov_merge, hidx]
      rw [h1, h1]
    | some idx =>
      by_cases hsec : CulNPatched.isSecureOfVal (o.answer.getD (.vstr "")) = true
      · rw [cov_merge_obj_some st o idx hidx, if_pos hsec,
          cov_merge_obj_some _ o idx hidx, if_pos hsec]
        simp [Finset.insert_idem, Function.update_idem]
      · rw [cov_merge_obj_some st o idx hidx, if_neg hsec]
        by_cases hk : idx ∈ st.keys
        · rw [if_pos hk, cov_merge_obj_some _ o idx hidx, if_neg hsec,
            if_pos (by simpa using hk)]
          simp [Finset.insert_idem]
        · rw [if_neg hk, cov_merge_obj_some _ o idx hidx, if_neg hsec,
            if_pos (by simp)]
          simp [Finset.insert_idem]

theorem cov_merge_val_inv (st : CulNPatched.CovState) (item : PyItem)
    (hinv : ∀ v, st.val v = true → v ∈ st.keys) :
    ∀ v, (CulNPatched.cov_merge st item).val v = true →
      v ∈ (CulNPatched.cov_merge st item).keys := by
  cases item with
  | notDict => exact hinv
  | obj o =>
    cases hidx : o.index with
    | none =>
      simp only [CulNPatched.cov_merge, hidx]
      exact hinv
    | some idx =>
      rw [cov_merge_obj_some st o idx hidx]
      by_cases hsec : CulNPatched.isSecureOfVal (o.answer.getD (.vstr "")) = true
      · rw [if_pos hsec]
        intro v hv
        simp only [Function.update] at hv
        by_cases hvidx : v = idx
        · simp [hvidx]
        · simp only [dif_neg hvidx] at hv
          simp [Finset.mem_insert, hinv v hv]
      · rw [if_neg hsec]
        by_cases hk : idx ∈ st.keys
        · rw [if_pos hk]
          exact hinv
        · rw [if_neg hk]
          intro v hv
          simp only [Function.update] at hv
          by_cases hvidx : v = idx
          · simp [hvidx]
          · simp only [dif_neg hvidx] at hv
            simp [Finset.mem_insert, hinv v hv]

theorem cov_merge_val_step (st : CulNPatched.CovState) (item : PyItem)
    (i : PyVal) (hinv : ∀ v, st.val v = true → v ∈ st.keys) :
    ((CulNPatched.cov_merge st item).val i = true ↔
      st.val i = true ∨ (itemIndex item = some i ∧ itemSecure item = true)) := by
  cases item with
  | notDict => simp [CulNPatched.cov_merge, itemIndex]
  | obj o =>
    cases hidx : o.index with
    | none =>
      simp [CulNPatched.cov_merge, itemIndex, hidx]
    | some idx =>
      rw [cov_merge_obj_some st o idx hidx]
      simp only [itemIndex, itemSecure, hidx]
      by_cases hsec : CulNPatched.isSecureOfVal (o.answer.getD (.vstr "")) = true
      · rw [if_pos hsec]
        by_cases hvidx : i = idx
        · subst hvidx
          simp [Function.update_same, hsec]
        · simp only [Function.update_noteq hvidx]
          constructor
          · intro h
            exact Or.inl h
          · rintro (h | ⟨hii, _⟩)
            · exact h
            · exact absurd (Option.some.inj hii).symm hvidx
      · rw [if_neg hsec]
        have hsec2 : CulNPatched.isSecureOfVal (o.answer.getD (.vstr ""))
            = false := by
          cases h : CulNPatched.isSecureOfVal (o.answer.getD (.vstr ""))
          · rfl
          · exact absurd h hsec
        by_cases hk : idx ∈ st.keys
        · rw [if_pos hk]
          simp [hsec2]
        · rw [if_neg hk]
          by_cases hvidx : i = idx
          · subst hvidx
            simp only [Function.update_same, hsec2]
            constructor
            · intro h
              exact absurd h (by simp)
            · intro h
              rcases h with h | ⟨_, h⟩
              · exact absurd (hinv i h) hk
              · exact absurd h (by simp)
          · simp only [Function.update_noteq hvidx, hsec2]
            constructor
            · intro h
              exact Or.inl h
            · rintro (h | ⟨hii, hfalse⟩)
              · exact h
              · exact absurd hfalse (by simp)

theorem cov_val_fold (records : List PyItem) (st : CulNPatched.CovState)
    (i : PyVal) (hinv : ∀ v, st.val v = true → v ∈ st.keys) :
    ((records.foldl CulNPatched.cov_merge st).val i = true ↔
      st.val i = true ∨
        ∃ it ∈ records, itemIndex it = some i ∧ itemSecure it = true) := by
  induction records generalizing st with
  | nil => simp
  | cons it rs ih =>
    rw [List.foldl_cons,
      ih (CulNPatched.cov_merge st it) (cov_merge_val_inv st it hinv),
      cov_merge_val_step st it i hinv]
    constructor
    · rintro ((h | h) | ⟨x, hx, hp⟩)
      · exact Or.inl h
      · exact Or.inr ⟨it, by simp, h⟩
      · exact Or.inr ⟨x, by simp [hx], hp⟩
    · rintro (h | ⟨x, hx, hp⟩)
      · exact Or.inl (Or.inl h)
      · rcases List.mem_cons.mp hx with h1 | h1
        · subst h1
          exact Or.inl (Or.inr hp)
        · exact Or.inr ⟨x, h1, hp⟩

/-! ### Ratio aggregation lemmas -/

theorem count_insecure_foldl (arr : List PyItem) (a0 : Nat) :
    arr.foldl (fun a item =>
      match item with
      | PyItem.notDict => a
      | PyItem.obj o =>
        if CulFullPatched.parseFinalOfVal (o.answer.getD (.vstr "")) = "Insecure"
        then a + 1 else a) a0 = a0 + arr.countP isInsecureRec := by
  induction arr generalizing a0 with
  | nil => simp
  | cons it rs ih =>
    rw [List.foldl_cons, ih, List.countP_cons]
    cases it with
    | notDict => simp [isInsecureRec]
    | obj o =>
      by_cases hp : CulFullPatched.parseFinalOfVal (o.answer.getD (.vstr ""))
          = "Insecure"
      · simp only [isInsecureRec, hp, if_pos]
        simp
        omega
      · simp [isInsecureRec, hp]

/-! ### Variant generation lemmas -/

theorem processEntry_eq_nil_of_ineligible
    (analyze : String → Except Unit (List String))
    (patchRaw : String → String → String → String) (i : Nat) (it : PyItem)
    (h : NPatch.entryEligible it = false) :
    NPatch.processEntry analyze patchRaw i it = [] := by
  cases it with
  | notDict => rfl
  | obj o =>
    unfold NPatch.processEntry
    unfold NPatch.entryEligible at h
    cases hans : o.answer.getD (.vstr "") with
    | vother => simp [hans]
    | vint n => simp [hans]
    | vstr a =>
      simp only [hans] at h ⊢
      by_cases hm : containsSub a insecureMarker = true
      · simp only [hm, Bool.true_and] at h
        cases hoc : o.origin_code.getD (.vstr "") with
        | vother => simp [hoc]
        | vint n => simp [hoc]
        | vstr c =>
          simp only [hoc] at h ⊢
          have hce : pyStripL c.toList = [] := by
            cases hl : pyStripL c.toList with
            | nil => rfl
            | cons x xs =>
              rw [hl] at h
              simp at h
          simp only [String.toList] at hce
          simp [hm, hce]
      · simp [hm]

theorem processEntry_eq_of (analyze : String → Except Unit (List String))
    (patchRaw : String → String → String → String) (i : Nat) (o : ItemObj)
    (ans c : String) (vulns : List String)
    (hans : o.answer.getD (.vstr "") = .vstr ans)
    (hm : containsSub ans insecureMarker = true)
    (hoc : o.origin_code.getD (.vstr "") = .vstr c)
    (hcne : ¬ pyStripL c.toList = [])
    (han : analyze ans = .ok vulns) :
    NPatch.processEntry analyze patchRaw i (.obj o) =
      vulns.filterMap (fun v_desc =>
        match NPatch.extract_code_block_from_model (patchRaw c ans v_desc) with
        | none => none
        | some code =>
          if code = "" then none
          else some { base := { o with index := some (.vint i) },
                      patched_code := code }) := by
  unfold NPatch.processEntry
  simp only [hans, hoc, han, hm]
  rw [if_neg (by simp), if_neg hcne]

theorem processEntry_index (analyze : String → Except Unit (List String))
    (patchRaw : String → String → String → String) (i : Nat) (it : PyItem)
    (r : PatchedRec) (hr : r ∈ NPatch.processEntry analyze patchRaw i it) :
    r.base.index = some (.vint i) := by
  cases hel : NPatch.entryEligible it with
  | false =>
    rw [processEntry_eq_nil_of_ineligible analyze patchRaw i it hel] at hr
    exact absurd hr (List.not_mem_nil r)
  | true =>
    cases it with
    | notDict => simp [NPatch.entryEligible] at hel
    | obj o =>
      cases hans : o.answer.getD (.vstr "") with
      | vother => simp [NPatch.entryEligible, hans] at hel
      | vint n => simp [NPatch.entryEligible, hans] at hel
      | vstr ans =>
        cases hoc : o.origin_code.getD (.vstr "") with
        | vother => simp [NPatch.entryEligible, hans, hoc] at hel
        | vint n => simp [NPatch.entryEligible, hans, hoc] at hel
        | vstr c =>
          simp only [NPatch.entryEligible, hans, hoc, Bool.and_eq_true] at hel
          obtain ⟨hm, hce⟩ := hel
          have hcne : ¬ pyStripL c.toList = [] := by
            intro h0
            rw [h0] at hce
            simp at hce
          cases han : analyze ans with
          | error e =>
            unfold NPatch.processEntry at hr
            simp only [hans, hoc, han, hm] at hr
            rw [if_neg (by simp), if_neg hcne] at hr
            exact absurd hr (List.not_mem_nil r)
          | ok vulns =>
            rw [processEntry_eq_of analyze patchRaw i o ans c vulns hans hm hoc
              hcne han] at hr
            obtain ⟨v, _, hv⟩ := List.mem_filterMap.mp hr
            split at hv
            · exact absurd hv (by simp)
            · split at hv
              · exact absurd hv (by simp)
              · have hinj := Option.some.inj hv
                rw [← hinj]

theorem emit_isSome (patchRaw : String → String → String → String)
    (o : ItemObj) (i : Nat) (c ans v : String) :
    ((match NPatch.extract_code_block_from_model (patchRaw c ans v) with
      | none => none
      | some code =>
        if code = "" then none
        else some { base := { o with index := some (.vint i) },
                    patched_code := code }) : Option PatchedRec).isSome
      = variantEmitted patchRaw c ans v := by
  unfold variantEmitted
  cases hext : NPatch.extract_code_block_from_model (patchRaw c ans v) with
  | none => rfl
  | some code =>
    by_cases hcode : code = ""
    · simp [hcode]
    · simp [hcode]

theorem inject_index_getD (code_arr ans_arr : List PyItem) (i : Nat)
    (co ao : ItemObj) (iv : PyVal)
    (hi : i < min code_arr.length ans_arr.length)
    (hc : code_arr.getD i .notDict = .obj co)
    (hco : co.index = some iv)
    (ha : ans_arr.getD i .notDict = .obj ao) :
    (DelNPatched.inject_index_for_pair code_arr ans_arr).getD i .notDict =
      .obj { ao with index := some iv } := by
  unfold DelNPatched.inject_index_for_pair
  have hia : i < ans_arr.length := lt_of_lt_of_le hi (min_le_right _ _)
  have hie : i < ans_arr.enum.length := by simpa using hia
  rw [List.getD_eq_getElem _ _ (by simpa using hia), List.getElem_map,
    List.getElem_enum]
  have hae : ans_arr[i] = .obj ao := by
    rw [← List.getD_eq_getElem ans_arr .notDict hia, ha]
  simp only [hae, hi, if_pos, hc, hco]

theorem last_unique (p : Nat → Bool) (n li i : Nat)
    (h1 : li < n ∧ p li = true ∧ ∀ j, li < j → j < n → p j = false)
    (h2 : i < n ∧ p i = true ∧ ∀ j, i < j → j < n → p j = false) : i = li := by
  obtain ⟨hln, hlp, hlr⟩ := h1
  obtain ⟨hin, hip, hir⟩ := h2
  by_contra hne
  rcases Nat.lt_or_ge i li with h | h
  · exact absurd hlp (by simp [hir li h hln])
  · have h2 : li < i := by omega
    exact absurd hip (by simp [hlr i h2 hin])

/-! ### Claim theorems -/

/-- Claim C1, counterexample: the batch dispatcher of
`patch_code_from_file` does not return one output per input - a single
`Secure` item (no `"# Answer:\nInsecure"` marker) is skipped and filtered
out of the gathered results, so the output is empty while the input has
length 1, contradicting "output length equals input length". -/
theorem C1_counterexample :
    FullPatch.patch_code_from_file okOracle [secureItem] [0] = [] ∧
      ([secureItem] : List PyItem).length = 1 := by
  constructor
  · decide
  · rfl

/-- Claim C1, amended: whatever order the per-item tasks complete in (any
completion sequence covering every input position), the GATHERED sequence
of `patch_code_from_file` has exactly one slot per input item in input
order; the serialized output is that sequence with the skipped (falsy)
entries dropped - an in-order subsequence whose length is the number of
eligible items (dict, `"# Answer:\nInsecure"` marker, non-empty
`origin_code`), patching failures included via the sentinel record. -/
theorem C1_amended_order_preserved (oracle : String → Except String String)
    (data : List PyItem) (order : List Nat)
    (h : ∀ i, i < data.length → i ∈ order) :
    FullPatch.gatherSlots
        (fun i => FullPatch.process_item oracle (data.getD i .notDict))
        data.length order = data.map (FullPatch.process_item oracle) ∧
      FullPatch.patch_code_from_file oracle data order =
        (data.map (FullPatch.process_item oracle)).filterMap id ∧
      (FullPatch.patch_code_from_file oracle data order).length =
        data.countP FullPatch.itemEligible := by
  have hg : FullPatch.gatherSlots
      (fun i => FullPatch.process_item oracle (data.getD i .notDict))
      data.length order = data.map (FullPatch.process_item oracle) := by
    rw [gatherSlots_eq_map _ _ _ h,
      range_map_getD data .notDict (FullPatch.process_item oracle)]
  refine ⟨hg, ?_, ?_⟩
  · unfold FullPatch.patch_code_from_file
    rw [hg]
  · unfold FullPatch.patch_code_from_file
    rw [hg, length_filterMap_eq_countP, List.countP_map]
    apply List.countP_congr
    intro it _
    simp only [Function.comp, id]
    rw [process_item_isSome oracle it]

/-- Witness for the amended claim C1 at a concrete batch: one skipped and
one eligible item, completing in reverse order. -/
theorem C1_amended_witness :
    FullPatch.patch_code_from_file okOracle [secureItem, insecureItem] [1, 0] =
        (([secureItem, insecureItem] : List PyItem).map
          (FullPatch.process_item okOracle)).filterMap id ∧
      (FullPatch.patch_code_from_file okOracle
        [secureItem, insecureItem] [1, 0]).length =
        ([secureItem, insecureItem] : List PyItem).countP
          FullPatch.itemEligible :=
  ⟨(C1_amended_order_preserved okOracle [secureItem, insecureItem] [1, 0]
      (by decide)).2.1,
   (C1_amended_order_preserved okOracle [secureItem, insecureItem] [1, 0]
      (by decide)).2.2⟩

/-- Claim C2, counterexample: on a text with two lines equal to
`# Answer:`, `validate_and_trim_strict` takes the verdict from the line
after the FIRST occurrence (`Secure`), not the last; the validator built
from the spec's "last occurrence" wording returns a different result. -/
theorem C2_counterexample :
    RunFullPatched.validate_and_trim_strict
        "# Reasoning:\n1. x\n# Answer:\nSecure\n# Answer:\nInsecure" =
      "# Reasoning:\n1. x\n# Answer:\nSecure" ∧
    RunFullPatched.validate_and_trim_last_spec
        "# Reasoning:\n1. x\n# Answer:\nSecure\n# Answer:\nInsecure" =
      "# Reasoning:\n1. x\n# Answer:\nSecure\n# Answer:\nInsecure" ∧
    RunFullPatched.validate_and_trim_strict
        "# Reasoning:\n1. x\n# Answer:\nSecure\n# Answer:\nInsecure" ≠
      RunFullPatched.validate_and_trim_last_spec
        "# Reasoning:\n1. x\n# Answer:\nSecure\n# Answer:\nInsecure" :=
  ⟨by decide, by decide, by decide⟩

/-- Claim C2, amended: the strict validator splits the tail at the FIRST
line equal to `# Answer:` and takes the verdict from the line immediately
following that first occurrence; later `# Answer:` lines and whatever
follows them (any `w2`) are ignored. -/
theorem C2_amended_first_occurrence (w2 : String) :
    RunFullPatched.validate_and_trim_strict
        ("# Reasoning:\n1. x\n# Answer:\nSecure\n# Answer:\n" ++ w2) =
      "# Reasoning:\n1. x\n# Answer:\nSecure" := by
  unfold RunFullPatched.validate_and_trim_strict
  have h1 : ("# Reasoning:\n1. x\n# Answer:\nSecure\n# Answer:\n" ++ w2).toList
      = "# Reasoning:\n1. x\n# Answer:\nSecure\n".toList ++
        ("# Answer:\n".toList ++ w2.toList) := by
    simp only [String.toList, String.data_append]
    rw [← List.append_assoc]
    congr 1
  rw [h1, validate_prefix_junk ("# Answer:\n".toList ++ w2.toList)]
  rfl

/-- Claim C3, counterexample: a valid verdict line followed by trailing
content is NOT rejected - `validate_and_trim_strict` returns the trimmed
canonical text rather than the empty string. -/
theorem C3_counterexample :
    RunFullPatched.validate_and_trim_strict
        "# Reasoning:\n1. x\n# Answer:\nSecure\ntrailing junk" ≠ "" ∧
    RunFullPatched.validate_and_trim_strict
        "# Reasoning:\n1. x\n# Answer:\nSecure\ntrailing junk" =
      "# Reasoning:\n1. x\n# Answer:\nSecure" :=
  ⟨by decide, by decide⟩

/-- Claim C3, amended: trailing content after the verdict line is
permitted and normalized away - for EVERY suffix `junk`, the validator
returns the canonical text truncated at the verdict token. -/
theorem C3_amended_trailing_stripped (junk : String) :
    RunFullPatched.validate_and_trim_strict
        ("# Reasoning:\n1. x\n# Answer:\nSecure\n" ++ junk) =
      "# Reasoning:\n1. x\n# Answer:\nSecure" := by
  unfold RunFullPatched.validate_and_trim_strict
  have h1 : ("# Reasoning:\n1. x\n# Answer:\nSecure\n" ++ junk).toList
      = "# Reasoning:\n1. x\n# Answer:\nSecure\n".toList ++ junk.toList := by
    simp only [String.toList, String.data_append]
  rw [h1, validate_prefix_junk junk.toList]
  rfl

theorem is_secure_none (s : String)
    (hlm : lastMatch
      (fun i => pyStripL ((ansLinesChars s.toList).getD i []) = answerHdr)
      (ansLinesChars s.toList).length = none) :
    CulNPatched.is_secure_answer s = false := by
  unfold CulNPatched.is_secure_answer
  rw [hlm]

theorem is_secure_some (s : String) (li : Nat)
    (hlm : lastMatch
      (fun i => pyStripL ((ansLinesChars s.toList).getD i []) = answerHdr)
      (ansLinesChars s.toList).length = some li) :
    CulNPatched.is_secure_answer s =
      (if li + 1 ≥ (ansLinesChars s.toList).length then false
       else pyStripL ((ansLinesChars s.toList).getD (li + 1) []) = secureTok) := by
  unfold CulNPatched.is_secure_answer
  rw [hlm]

/-- Claim C4, confirmed: `is_secure_answer` agrees with
`parse_final_answer == "Secure"`, and both hold exactly when the LAST line
whose trimmed content is `# Answer:` is immediately followed by a line
whose trimmed content is `Secure`; in particular, on a text whose first
`# Answer:` block says `Secure` but whose last says `Insecure`, the result
is `false` (the last block decides). -/
theorem C4_last_block_semantics (s : String) :
    (CulNPatched.is_secure_answer s = true ↔
      CulFullPatched.parse_final_answer s = "Secure") ∧
    (CulNPatched.is_secure_answer s = true ↔
      CulNPatched.lastAnswerFollowedBySecure s) ∧
    CulNPatched.is_secure_answer "# Answer:\nSecure\nx\n# Answer:\nInsecure"
      = false := by
  refine ⟨?_, ?_, by decide⟩
  · rw [is_secure_eq_parse s]
    exact decide_eq_true_iff
  · unfold CulNPatched.lastAnswerFollowedBySecure
    cases hlm : lastMatch
        (fun i => pyStripL ((ansLinesChars s.toList).getD i []) = answerHdr)
        (ansLinesChars s.toList).length with
    | none =>
      rw [is_secure_none s hlm]
      simp only [Bool.false_eq_true, false_iff]
      rintro ⟨i, hi1, hi2, _, _⟩
      exact absurd hi2
        (of_decide_eq_false ((lastMatch_eq_none_iff _ _).mp hlm i (by omega)))
    | some li =>
      obtain ⟨hlin, hlip, hlir⟩ := (lastMatch_eq_some_iff _ _ _).mp hlm
      rw [is_secure_some s li hlm]
      by_cases hle : li + 1 ≥ (ansLinesChars s.toList).length
      · rw [if_pos hle]
        simp only [Bool.false_eq_true, false_iff]
        rintro ⟨i, hi1, hi2, hir, _⟩
        have hieq : i = li := last_unique _ (ansLinesChars s.toList).length li i
          ⟨hlin, hlip, hlir⟩
          ⟨by omega, decide_eq_true hi2,
           fun j hj1 hj2 => decide_eq_false (hir j hj1 hj2)⟩
        omega
      · rw [if_neg hle]
        constructor
        · intro h
          refine ⟨li, by omega, of_decide_eq_true hlip, ?_,
            of_decide_eq_true h⟩
          intro j hj1 hj2
          exact of_decide_eq_false (hlir j hj1 hj2)
        · rintro ⟨i, hi1, hi2, hir, hsec⟩
          have hieq : i = li := last_unique _ (ansLinesChars s.toList).length li i
            ⟨hlin, hlip, hlir⟩
            ⟨by omega, decide_eq_true hi2,
             fun j hj1 hj2 => decide_eq_false (hir j hj1 hj2)⟩
          rw [hieq] at hsec
          exact decide_eq_true hsec

/-- Claim C5, counterexample: on the empty input, `coerce_to_template`
does NOT return a document whose reasoning consists of the input's first
non-empty lines (there are none, so the claim's document has an empty
reasoning section) - it substitutes the synthetic bullet
`1. No explicit reasoning found.`. -/
theorem C5_counterexample :
    RunFullPatched.coerce_to_template "" ≠ RunFullPatched.coerce_claim_doc "" ∧
    RunFullPatched.coerce_to_template "" =
      "# Reasoning:\n1. No explicit reasoning found.\n\n# Answer:\nInsecure" ∧
    RunFullPatched.coerce_claim_doc "" =
      "# Reasoning:\n\n\n# Answer:\nInsecure" :=
  ⟨by decide, by decide, by decide⟩

/-- Claim C5, amended: for every input, `coerce_to_template` returns the
claim's document (first `k ≤ 5` non-empty stripped lines, numbered
`1..k`, verdict `Insecure`) whenever the input has at least one non-empty
line, and the fixed synthetic document when it has none; in both cases the
verdict parsed from the result is `Insecure` (never `Secure`), and in
particular `coerce_to_template "garbage"` yields verdict `Insecure`. -/
theorem C5_amended_coercion (s : String) :
    RunFullPatched.coerce_to_template s =
      (if RunFullPatched.coerceLines s.toList = []
       then "# Reasoning:\n1. No explicit reasoning found.\n\n# Answer:\nInsecure"
       else RunFullPatched.coerce_claim_doc s) ∧
    CulFullPatched.parse_final_answer (RunFullPatched.coerce_to_template s) =
      "Insecure" ∧
    CulNPatched.is_secure_answer (RunFullPatched.coerce_to_template s) = false ∧
    RunFullPatched.coerce_to_template "garbage" =
      "# Reasoning:\n1. garbage\n\n# Answer:\nInsecure" := by
  refine ⟨?_, parse_final_coerce s, ?_, by decide⟩
  · by_cases h : RunFullPatched.coerceLines s.toList = []
    · rw [if_pos h]
      unfold RunFullPatched.coerce_to_template RunFullPatched.coerceChars
        RunFullPatched.coerceBullets
      rw [if_pos h]
      decide
    · rw [if_neg h]
      unfold RunFullPatched.coerce_to_template RunFullPatched.coerce_claim_doc
        RunFullPatched.coerceChars RunFullPatched.coerceBullets
      rw [if_neg h]
  · rw [is_secure_eq_parse, parse_final_coerce s]
    rfl

/-- Claim C6, confirmed: starting from the empty coverage state, the
per-index flag computed by the merge of `process_model_dir`
(cul_N_patched.py) is true exactly when SOME record with that index has a
`Secure` answer (boolean OR over the records sharing the index), and the
merge is idempotent: folding the same record in twice gives the same
state - hence the same `(num, a, pct)` statistics - as folding it once. -/
theorem C6_coverage_or_idempotent :
    (∀ (records : List PyItem) (i : PyVal),
      ((records.foldl CulNPatched.cov_merge CulNPatched.covInit).val i = true ↔
        ∃ it ∈ records, itemIndex it = some i ∧ itemSecure it = true)) ∧
    (∀ (st : CulNPatched.CovState) (it : PyItem),
      CulNPatched.cov_merge (CulNPatched.cov_merge st it) it =
        CulNPatched.cov_merge st it) ∧
    (∀ (st : CulNPatched.CovState) (it : PyItem),
      CulNPatched.cov_stats
          (CulNPatched.cov_merge (CulNPatched.cov_merge st it) it) =
        CulNPatched.cov_stats (CulNPatched.cov_merge st it)) := by
  refine ⟨?_, cov_merge_idem, fun st it => by rw [cov_merge_idem]⟩
  intro records i
  have h := cov_val_fold records CulNPatched.covInit i
    (by
      intro v hv
      simp [CulNPatched.covInit] at hv)
  rw [h]
  simp [CulNPatched.covInit]

/-- Claim C7, confirmed: over a loaded array of records, the ratio
aggregation reports `num` = the number of elements, `a` = the number of
dict elements whose parsed final verdict is `Insecure`, and
`pct = a / num * 100` guarded so that an empty input reports `pct = 0`
instead of dividing by zero; the coverage aggregation gives the same
zero-input guarantee. -/
theorem C7_ratio_statistics :
    (∀ records : List PyItem,
      CulFullPatched.process_model_dir [records] =
        { num := records.length, a := records.countP isInsecureRec,
          pct := if 0 < records.length
            then (records.countP isInsecureRec : ℚ) / (records.length : ℚ) * 100
            else 0 }) ∧
    (CulFullPatched.process_model_dir []).pct = 0 ∧
    (CulNPatched.process_model_dir []).pct = 0 := by
  refine ⟨?_, by rfl, by rfl⟩
  intro records
  unfold CulFullPatched.process_model_dir
  rw [List.foldl_cons, List.foldl_nil]
  unfold CulFullPatched.tallyFile
  rw [count_insecure_foldl records 0]
  simp

/-- Claim C8, counterexample: `process_entries` does NOT preserve a
pre-existing explicit `index` - an eligible entry carrying `index = 7`
yields a variant record whose `index` has been overwritten with the
entry's position `0` in the input list. -/
theorem C8_counterexample :
    NPatch.process_entries oneVulnAnalyze fencedPatchRaw [insecureItemIdx7] =
      [{ base := { insecureObj7 with index := some (.vint 0) },
         patched_code := "int y;" }] ∧
    some (PyVal.vint 0) ≠ some (PyVal.vint 7) :=
  ⟨by decide, by decide⟩

/-- Claim C8, amended: `process_entries` assigns every emitted variant's
`index` to the entry's POSITION in the input list, overwriting any
pre-existing `index` field; `inject_index_for_pair`, in contrast, copies
the code-side `index` verbatim onto the positionally paired answer
record. -/
theorem C8_amended_index_flow :
    (∀ (analyze : String → Except Unit (List String))
        (patchRaw : String → String → String → String)
        (i : Nat) (it : PyItem) (r : PatchedRec),
      r ∈ NPatch.processEntry analyze patchRaw i it →
      r.base.index = some (.vint i)) ∧
    (∀ (code_arr ans_arr : List PyItem) (i : Nat) (co ao : ItemObj)
        (iv : PyVal),
      i < min code_arr.length ans_arr.length →
      code_arr.getD i .notDict = .obj co → co.index = some iv →
      ans_arr.getD i .notDict = .obj ao →
      (DelNPatched.inject_index_for_pair code_arr ans_arr).getD i .notDict =
        .obj { ao with index := some iv }) :=
  ⟨processEntry_index, inject_index_getD⟩

/-- Witness for the amended claim C8: the entry at position 0 carrying
explicit index 7 emits a variant with index 0, and injecting from a code
array carrying index 7 stamps 7 onto the paired answer record. -/
theorem C8_amended_witness :
    ({ base := { insecureObj7 with index := some (.vint 0) },
       patched_code := "int y;" } : PatchedRec).base.index =
        some (PyVal.vint 0) ∧
    (DelNPatched.inject_index_for_pair [insecureItemIdx7] [secureItem]).getD
        0 .notDict = .obj { secureObj with index := some (.vint 7) } :=
  ⟨C8_amended_index_flow.1 oneVulnAnalyze fencedPatchRaw 0 insecureItemIdx7
      _ (by decide),
   C8_amended_index_flow.2 [insecureItemIdx7] [secureItem] 0 insecureObj7
      secureObj (.vint 7) (by decide) (by decide) (by decide) (by decide)⟩

/-- Claim C9, confirmed: `process_entries` emits variants only for entries
that are dicts whose `answer` contains the literal `"# Answer:\nInsecure"`
and whose `origin_code` strips non-empty (ineligible entries yield `[]`);
for an eligible entry whose descriptor extraction succeeds, exactly one
variant is emitted per descriptor whose patch response contains an
extractable (truthy) fenced block - an empty descriptor list yields no
variants and no error, and a response with no extractable block yields no
variant for that descriptor. -/
theorem C9_variant_state_machine :
    (∀ (analyze : String → Except Unit (List String))
        (patchRaw : String → String → String → String) (i : Nat)
        (it : PyItem),
      NPatch.entryEligible it = false →
      NPatch.processEntry analyze patchRaw i it = []) ∧
    (∀ (analyze : String → Except Unit (List String))
        (patchRaw : String → String → String → String) (i : Nat)
        (o : ItemObj) (ans c : String) (vulns : List String),
      o.answer.getD (.vstr "") = .vstr ans →
      containsSub ans insecureMarker = true →
      o.origin_code.getD (.vstr "") = .vstr c →
      ¬ pyStripL c.toList = [] →
      analyze ans = .ok vulns →
      ((NPatch.processEntry analyze patchRaw i (.obj o)).length =
          vulns.countP (variantEmitted patchRaw c ans) ∧
        (vulns = [] →
          NPatch.processEntry analyze patchRaw i (.obj o) = []))) ∧
    (∀ (patchRaw : String → String → String → String) (c ans v : String),
      NPatch.extract_code_block_from_model (patchRaw c ans v) = none →
      variantEmitted patchRaw c ans v = false) := by
  refine ⟨processEntry_eq_nil_of_ineligible, ?_, ?_⟩
  · intro analyze patchRaw i o ans c vulns hans hm hoc hcne han
    constructor
    · rw [processEntry_eq_of analyze patchRaw i o ans c vulns hans hm hoc
        hcne han, length_filterMap_eq_countP]
      apply List.countP_congr
      intro v _
      simp only [emit_isSome patchRaw o i c ans v]
    · intro hv
      subst hv
      rw [processEntry_eq_of analyze patchRaw i o ans c [] hans hm hoc
        hcne han]
      rfl
  · intro patchRaw c ans v h
    unfold variantEmitted
    rw [h]

/-- Witness for claim C9: an ineligible (`Secure`) entry yields no
variants, and the eligible fixture entry with one descriptor and a fenced
patch response emits exactly one variant. -/
theorem C9_witness :
    NPatch.processEntry oneVulnAnalyze fencedPatchRaw 0 secureItem = [] ∧
    (NPatch.processEntry oneVulnAnalyze fencedPatchRaw 0
        insecureItemIdx7).length =
      (["unchecked copy"] : List String).countP
        (variantEmitted fencedPatchRaw "int x;"
          "# Reasoning:\n1. bad\n# Answer:\nInsecure") :=
  ⟨C9_variant_state_machine.1 oneVulnAnalyze fencedPatchRaw 0 secureItem
      (by decide),
   (C9_variant_state_machine.2.1 oneVulnAnalyze fencedPatchRaw 0 insecureObj7
      "# Reasoning:\n1. bad\n# Answer:\nInsecure" "int x;" ["unchecked copy"]
      (by decide) (by decide) (by decide) (by decide) rfl).1⟩

/-- Claim C10, counterexample: the recorded answer is not always
re-validatable - for the raw output `"# Answer:"` the recorder falls back
to coercion, and re-applying `validate_and_trim_strict` to the recorded
document returns the empty string (the synthetic bullet contains
`# Answer:` as a substring, which derails the validator's substring
anchor). -/
theorem C10_counterexample :
    RunFullPatched.record_answer "# Answer:" =
      "# Reasoning:\n1. # Answer:\n\n# Answer:\nInsecure" ∧
    RunFullPatched.validate_and_trim_strict
      "# Reasoning:\n1. # Answer:\n\n# Answer:\nInsecure" = "" :=
  ⟨by decide, by decide⟩

/-- Claim C10, amended: every recorded answer is
`validate_and_trim_strict text` when that is non-empty and
`coerce_to_template text` otherwise; and in both cases the DOWNSTREAM
verdict extraction (`parse_final_answer`) applied to the recorded answer
yields `Secure` or `Insecure` - no emitted record carries an answer the
downstream logic cannot parse (strict RE-validation, however, can fail,
as the counterexample shows). -/
theorem C10_recorded_answers_parseable (text : String) :
    RunFullPatched.record_answer text =
      (if RunFullPatched.validate_and_trim_strict text = ""
       then RunFullPatched.coerce_to_template text
       else RunFullPatched.validate_and_trim_strict text) ∧
    (CulFullPatched.parse_final_answer (RunFullPatched.record_answer text) =
        "Secure" ∨
      CulFullPatched.parse_final_answer (RunFullPatched.record_answer text) =
        "Insecure") := by
  refine ⟨rfl, ?_⟩
  unfold RunFullPatched.record_answer
  by_cases h : RunFullPatched.validate_and_trim_strict text = ""
  · rw [if_pos h]
    right
    exact parse_final_coerce text
  · rw [if_neg h]
    have h2 : RunFullPatched.validateChars text.toList ≠ [] := by
      intro h0
      apply h
      unfold RunFullPatched.validate_and_trim_strict
      rw [h0]
      rfl
    have h3 := parse_final_validate text.toList h2
    simpa [RunFullPatched.validate_and_trim_strict] using h3
